import Mathlib

/-!
flux-core `libidset`: a shallow embedding of `src/common/libidset/idset.c`

The C `int` is modelled by `Int` with an explicit 32-bit two's complement
wrap (`wrap32`) at the places where the C code can overflow (`id + 1`,
`newsize <<= 1`, `i--`, and the `unsigned long` to `int` conversions of
`parse_range`).  C strings are lists of characters without the terminating
NUL.  Allocation never fails in this model, so `ENOMEM` paths are absent.
A call that does not return is the outcome `Outcome.loops`.
-/

namespace Flux

/-! ## Machine integers and outcomes -/

def INT_MAX : Int := 2147483647

def INT_MIN : Int := -2147483648

def ULONG_MAX : Nat := 18446744073709551615

/-- Conversion of an integer value to a 32-bit two's complement `int`. -/
def wrap32 (x : Int) : Int := (x + 2147483648) % 4294967296 - 2147483648

inductive Errno where
  | EINVAL
  | ENOMEM
deriving DecidableEq, Repr

/-- Result of a call: a returned value, a failure return with `errno`, or no
return at all. -/
inductive Outcome (α : Type) where
  | ok (a : α)
  | fail (e : Errno)
  | loops
deriving DecidableEq, Repr

/-! ## The ordered integer store (`veb.h`) -/

/-- Modelled from the spec: the van Emde Boas store of `libutil/veb.h`, which
is not part of the sources.  `M` is the capacity, `D` the members; the spec
(section 4.1) fixes only the contract of insert and successor. -/
structure Veb where
  M : Int
  D : List Int
deriving DecidableEq, Repr

/-- Doubling of `p` until it holds `n`. -/
def round_pow2_loop : Nat → Int → Int → Int
  | 0, p, _ => p
  | fuel + 1, p, n => if p < n then round_pow2_loop fuel (p * 2) n else p

/-- The least power of two that is at least `n`. -/
def round_pow2 (n : Int) : Int := round_pow2_loop n.toNat 1 n

/-- Modelled from the spec: `vebnew (M, 0)` builds an empty store (`veb.h` is
missing; `idset.c` only ever passes `full = 0`).  By section 4.1 the requested
capacity is rounded up internally, and by section 3 a capacity is always a
power of two: the capacity of the new store is the least power of two that
is at least `M`. -/
def vebnew (M : Int) : Veb := { M := round_pow2 M, D := [] }

/-- Modelled from the spec: `successor(x)` of section 4.1, the smallest member
`≥ x`, or the sentinel `capacity` when there is none. -/
def vebsucc (T : Veb) (x : Int) : Int :=
  T.D.foldl (fun best y => if x ≤ y ∧ y < best then y else best) T.M

/-- Insertion into an ascending duplicate-free list. -/
def insert_id (x : Int) : List Int → List Int
  | [] => [x]
  | y :: ys =>
    if x < y then x :: y :: ys
    else if x = y then y :: ys
    else y :: insert_id x ys

/-- Modelled from the spec: `insert(x)` of section 4.1; it requires
`0 ≤ x < capacity`, adds `x`, and is idempotent.  Outside that range the store
is left as it is. -/
def vebput (T : Veb) (x : Int) : Veb :=
  if 0 ≤ x ∧ x < T.M then { T with D := insert_id x T.D } else T

/-! ## `struct idset` and its flags (`idset.h`) -/

/-- Modelled from the spec: flag bit of `idset.h` (missing from the sources). -/
def IDSET_FLAG_AUTOGROW : Nat := 1

/-- Modelled from the spec: flag bit of `idset.h` (missing from the sources). -/
def IDSET_FLAG_BRACKETS : Nat := 2

/-- Modelled from the spec: flag bit of `idset.h` (missing from the sources). -/
def IDSET_FLAG_RANGE : Nat := 4

def IDSET_MAGIC : Int := wrap32 0xf00f0ee1

structure idset where
  magic : Int
  T : Veb
  flags : Nat
deriving DecidableEq, Repr

/-- The test `(flags & ~mask) != 0` on 32-bit flag words. -/
def has_other_bits (flags mask : Nat) : Bool :=
  (flags &&& (0xFFFFFFFF ^^^ mask)) != 0

def idset_create (slots : Nat) (flags : Nat) : Outcome idset :=
  if slots = 0 ∨ has_other_bits flags IDSET_FLAG_AUTOGROW then .fail .EINVAL
  else .ok { magic := IDSET_MAGIC, T := vebnew (slots : Int), flags := flags }

/-! ## Formatting (`catprintf`, `catrange`) -/

def digit_char (d : Nat) : Char := Char.ofNat (48 + d)

def udigits : Nat → Nat → List Char
  | 0, _ => []
  | fuel + 1, n =>
    if n < 10 then [digit_char n]
    else udigits fuel (n / 10) ++ [digit_char (n % 10)]

/-- The `%d` conversion of printf. -/
def fmt_d (n : Int) : List Char :=
  if n < 0 then '-' :: udigits (n.natAbs + 1) n.natAbs
  else udigits (n.toNat + 1) n.toNat

/-- Appends the formatted text `ns` to the buffer; the `NULL` buffer of the C
code is the empty list. -/
def catprintf (s : List Char) (ns : List Char) : List Char := s ++ ns

def catrange (s : List Char) (lo hi : Int) (sep : List Char) : List Char :=
  if lo = hi then catprintf s (fmt_d lo ++ sep)
  else catprintf s (fmt_d lo ++ '-' :: fmt_d hi ++ sep)

/-! ## Encoding -/

/-- The `while (id < idset->T.M)` loop of `encode_ranged`; the state is
`id, lo, hi, first, count` and the buffer. -/
def encode_ranged_loop (T : Veb) :
    Nat → Int → Int → Int → Bool → Int → List Char → Option (Int × List Char)
  | 0, _, _, _, _, _, _ => none
  | fuel + 1, id, lo, hi, first, count, s =>
    if id < T.M then
      let next := vebsucc T (id + 1)
      let last : Bool := next = T.M
      let st : Int × Int × List Char :=
        if first then (lo, hi, s)
        else if id = hi + 1 then (lo, hi + 1, s)
        else (id, id, catrange s lo hi [','])
      let s2 := if last then catrange st.2.2 st.1 st.2.1 [] else st.2.2
      encode_ranged_loop T fuel next st.1 st.2.1 false (count + 1) s2
    else some (count, s)

def encode_ranged (T : Veb) (s : List Char) : Option (Int × List Char) :=
  let id := vebsucc T 0
  encode_ranged_loop T (T.M.toNat + 1) id id id true 0 s

/-- The `while (id != idset->T.M)` loop of `encode_simple`. -/
def encode_simple_loop (T : Veb) :
    Nat → Int → Int → List Char → Option (Int × List Char)
  | 0, _, _, _ => none
  | fuel + 1, id, count, s =>
    if id ≠ T.M then
      let next := vebsucc T (id + 1)
      let sep : List Char := if next = T.M then [] else [',']
      encode_simple_loop T fuel next (count + 1) (catprintf s (fmt_d id ++ sep))
    else some (count, s)

def encode_simple (T : Veb) (s : List Char) : Option (Int × List Char) :=
  encode_simple_loop T (T.M.toNat + 1) (vebsucc T 0) 0 s

/-- The handle is `none` for a `NULL` pointer. -/
def idset_encode (p : Option idset) (flags : Nat) : Outcome (List Char) :=
  match p with
  | none => .fail .EINVAL
  | some s =>
    if s.magic ≠ IDSET_MAGIC
        ∨ has_other_bits flags (IDSET_FLAG_BRACKETS ||| IDSET_FLAG_RANGE) then
      .fail .EINVAL
    else
      let str0 : List Char :=
        if flags &&& IDSET_FLAG_BRACKETS ≠ 0 then catprintf [] ['['] else []
      let r :=
        if flags &&& IDSET_FLAG_RANGE ≠ 0 then encode_ranged s.T str0
        else encode_simple s.T str0
      match r with
      | none => .loops
      | some (count, str1) =>
        let str2 :=
          if flags &&& IDSET_FLAG_BRACKETS ≠ 0 ∧ count > 1 then catprintf str1 [']']
          else str1
        if count ≤ 1 ∧ str2.head? = some '[' then .ok str2.tail else .ok str2

/-! ## Growth and insertion -/

/-- The loop `while (newsize <= slots) newsize <<= 1`. -/
def grow_loop : Nat → Int → Int → Option Int
  | 0, _, _ => none
  | fuel + 1, newsize, slots =>
    if newsize ≤ slots then grow_loop fuel (wrap32 (newsize * 2)) slots
    else some newsize

/-- The loop of `idset_grow` that copies every member of the old store
`old` into the new store `T`. -/
def grow_copy (old : Veb) : Nat → Int → Veb → Option Veb
  | 0, _, _ => none
  | fuel + 1, id, T =>
    if id < old.M then grow_copy old fuel (vebsucc old (id + 1)) (vebput T id)
    else some T

def idset_grow (s : idset) (slots : Int) : Outcome idset :=
  match grow_loop 64 s.T.M slots with
  | none => .loops
  | some newsize =>
    if newsize > s.T.M then
      match grow_copy s.T (s.T.M.toNat + 1) (vebsucc s.T 0) (vebnew newsize) with
      | none => .loops
      | some T => .ok { s with T := T }
    else .ok s

def idset_set (s : idset) (id : Int) : Outcome idset :=
  match idset_grow s (wrap32 (id + 1)) with
  | .ok s1 => .ok { s1 with T := vebput s1.T id }
  | .fail e => .fail e
  | .loops => .loops

/-! ## Decoding -/

def isspace (c : Char) : Bool :=
  c = ' ' ∨ (9 ≤ c.toNat ∧ c.toNat ≤ 13)

def isdigit (c : Char) : Bool := 48 ≤ c.toNat ∧ c.toNat ≤ 57

def digits_value (ds : List Char) : Nat :=
  ds.foldl (fun a c => a * 10 + (c.toNat - 48)) 0

/-- The optional sign that `strtoul` reads after the white space: whether the
value is negated, and the text after the sign. -/
def strtoul_sign (s1 : List Char) : Bool × List Char :=
  match s1 with
  | '-' :: t => (true, t)
  | '+' :: t => (false, t)
  | _ => (false, s1)

/-- The libc `strtoul (s, &endptr, 10)` with a 64-bit `unsigned long`: the
value and `endptr`, the unparsed rest.  When no digits are found `endptr` is
`s` itself. -/
def strtoul (s : List Char) : Nat × List Char :=
  let s1 := s.dropWhile isspace
  let sg : Bool × List Char := strtoul_sign s1
  let ds := sg.2.takeWhile isdigit
  if ds = [] then (0, s)
  else
    let v := digits_value ds
    let r := sg.2.dropWhile isdigit
    if v > ULONG_MAX then (ULONG_MAX, r)
    else if sg.1 then ((ULONG_MAX + 1 - v) % (ULONG_MAX + 1), r)
    else (v, r)

/-- Returns `(hi, lo)`, or `none` for the return value `-1`.  Pointer equality
`endptr == s` is equality of the lengths of the two suffixes. -/
def parse_range (s : List Char) : Option (Int × Int) :=
  let r1 := strtoul s
  let l := wrap32 (r1.1 : Int)
  if r1.2.length = s.length ∨ (r1.2 ≠ [] ∧ r1.2.head? ≠ some '-') then none
  else if r1.2.head? = some '-' then
    let s2 := r1.2.tail
    let r2 := strtoul s2
    if r2.2.length = s2.length ∨ r2.2 ≠ [] then none
    else some (wrap32 (r2.1 : Int), l)
  else some (l, l)

def trim_brackets (s : List Char) : List Char :=
  let p := if s.head? = some '[' then s.tail else s
  if p.length > 0 ∧ p.getLast? = some ']' then p.dropLast else p

/-- One call of `strtok_r` with the delimiter `","` at position `s`: the token
and the new save pointer, or `none` when no token is left. -/
def strtok_r (s : List Char) : Option (List Char × List Char) :=
  let s1 := s.dropWhile (fun c => c = ',')
  if s1 = [] then none
  else some (s1.takeWhile (fun c => c ≠ ','), (s1.dropWhile (fun c => c ≠ ',')).drop 1)

/-- The loop `for (i = hi; i >= lo; i--) idset_set (idset, i)`. -/
def decode_for : Nat → idset → Int → Int → Outcome idset
  | 0, _, _, _ => .loops
  | fuel + 1, s, i, lo =>
    if i ≥ lo then
      match idset_set s i with
      | .ok s1 => decode_for fuel s1 (wrap32 (i - 1)) lo
      | .fail e => .fail e
      | .loops => .loops
    else .ok s

/-- The loop `while ((tok = strtok_r (a1, ",", &saveptr)))`. -/
def decode_loop : Nat → idset → List Char → Outcome idset
  | 0, _, _ => .loops
  | fuel + 1, s, p =>
    match strtok_r p with
    | none => .ok s
    | some (tok, saveptr) =>
      match parse_range tok with
      | none => .fail .EINVAL
      | some (hi, lo) =>
        match decode_for 4294967297 s hi lo with
        | .ok s1 => decode_loop fuel s1 saveptr
        | .fail e => .fail e
        | .loops => .loops

/-- The libc `strdup`: the copy ends at the first NUL. -/
def strdup (s : List Char) : List Char := s.takeWhile (fun c => c ≠ Char.ofNat 0)

def idset_decode (str : Option (List Char)) : Outcome idset :=
  match str with
  | none => .fail .EINVAL
  | some str =>
    match idset_create 1024 IDSET_FLAG_AUTOGROW with
    | .ok s =>
      let cpy := strdup str
      let a1 := trim_brackets cpy
      decode_loop (a1.length + 1) s a1
    | .fail e => .fail e
    | .loops => .loops



/-! ## Specification-level definitions -/

/-- A well-formed store: capacity at least one, members listed in strictly
ascending order, every member in `[0, M)`. -/
def valid (T : Veb) : Prop :=
  1 ≤ T.M ∧ T.D.Pairwise (fun a b => a < b) ∧ ∀ x ∈ T.D, 0 ≤ x ∧ x < T.M

instance (T : Veb) : Decidable (valid T) := by
  unfold valid; infer_instance

/-- A usable handle: the magic number is in place and the store is well formed. -/
def valid_set (s : idset) : Prop := s.magic = IDSET_MAGIC ∧ valid s.T

instance (s : idset) : Decidable (valid_set s) := by
  unfold valid_set; infer_instance

/-- The successor seen when the members still ahead are `rest`. -/
def next_of (M : Int) : List Int → Int
  | [] => M
  | b :: _ => b

/-- Texts joined by single commas. -/
def join_commas : List (List Char) → List Char
  | [] => []
  | [t] => t
  | t :: u :: ts => t ++ ',' :: join_commas (u :: ts)

/-- Reference rendering of simple mode: the decimal renderings of the members
joined by commas. -/
def render_simple (l : List Int) : List Char := join_commas (l.map fmt_d)

/-- Reference definition of the maximal runs of consecutive members of an
ascending list, as pairs `(lo, hi)`. -/
def runs : List Int → List (Int × Int)
  | [] => []
  | a :: rest =>
    match runs rest with
    | [] => [(a, a)]
    | (lo, hi) :: rs => if lo = a + 1 then (a, hi) :: rs else (a, a) :: (lo, hi) :: rs

/-- A run `[lo, hi]` is written `lo` when `lo = hi` and `lo-hi` otherwise. -/
def render_run (r : Int × Int) : List Char :=
  if r.1 = r.2 then fmt_d r.1 else fmt_d r.1 ++ '-' :: fmt_d r.2

/-- Reference rendering of range mode. -/
def render_ranged (l : List Int) : List Char := join_commas ((runs l).map render_run)

/-- The runs of `a :: rest` computed left to right, `[lo, hi]` being the run
under construction. -/
def runs_from (lo hi : Int) : List Int → List (Int × Int)
  | [] => [(lo, hi)]
  | a :: rest =>
    if a = hi + 1 then runs_from lo (hi + 1) rest else (lo, hi) :: runs_from a a rest

/-- The members `lo, lo + 1, ..., hi` of a run. -/
def run_ids (r : Int × Int) : List Int :=
  (List.range (r.2 - r.1 + 1).toNat).map (fun (k : Nat) => r.1 + (k : Int))

/-- A set whose store is well formed and whose capacity fits an `int`. -/
def good (s : idset) : Prop := valid s.T ∧ s.T.M < 2147483648

instance (s : idset) : Decidable (good s) := by
  unfold good; infer_instance

/-- A power of two. -/
def is_pow2 (n : Int) : Prop := ∃ e : Nat, n = 2 ^ e

/-- The exponent `e` is the least one with `n ≤ 2 ^ e`. -/
def least_exp (n : Int) (e : Nat) : Prop := n ≤ 2 ^ e ∧ (e = 0 ∨ 2 ^ (e - 1) < n)

/-- A set whose store is well formed and whose capacity is a power of two of
at most `2^30`, as every set that `idset_decode` builds. -/
def pgood (s : idset) : Prop := valid s.T ∧ ∃ e : Nat, e ≤ 30 ∧ s.T.M = 2 ^ e

/-! ## Specification-level definitions for decoding -/

/-- The pieces of a text between its commas. -/
def split_commas : List Char → List (List Char)
  | [] => [[]]
  | c :: cs =>
    if c = ',' then [] :: split_commas cs
    else
      match split_commas cs with
      | [] => [[c]]
      | t :: ts => (c :: t) :: ts

/-- The tokens of a text: its non-empty pieces between commas. -/
def tokens (p : List Char) : List (List Char) :=
  (split_commas p).filter (fun t => t ≠ [])

/-- The decode loop over a list of tokens. -/
def decode_tokens : idset → List (List Char) → Outcome idset
  | s, [] => .ok s
  | s, tok :: rest =>
    match parse_range tok with
    | none => .fail .EINVAL
    | some (hi, lo) =>
      match decode_for 4294967297 s hi lo with
      | .ok s1 => decode_tokens s1 rest
      | .fail e => .fail e
      | .loops => .loops

/-- A non-empty sequence of decimal digits. -/
def is_number (a : List Char) : Prop := a ≠ [] ∧ ∀ c ∈ a, isdigit c = true

instance (a : List Char) : Decidable (is_number a) := by
  unfold is_number; infer_instance

/-- A token of the grammar: a decimal integer, or two of them joined by `-`. -/
inductive Tok where
  | one (a : List Char)
  | two (a b : List Char)
deriving DecidableEq, Repr

def Tok.text : Tok → List Char
  | .one a => a
  | .two a b => a ++ '-' :: b

/-- The first integer of a token. -/
def Tok.lo : Tok → Int
  | .one a => (digits_value a : Int)
  | .two a _ => (digits_value a : Int)

/-- The last integer of a token. -/
def Tok.hi : Tok → Int
  | .one a => (digits_value a : Int)
  | .two _ b => (digits_value b : Int)

/-- A token made of digit sequences whose values are below `2^30 - 1`, so that
no capacity doubling overflows. -/
def Tok.wf : Tok → Prop
  | .one a => is_number a ∧ digits_value a < 1073741823
  | .two a b => is_number a ∧ is_number b ∧ digits_value a < 1073741823
      ∧ digits_value b < 1073741823

instance (t : Tok) : Decidable t.wf := by
  cases t <;> unfold Tok.wf <;> infer_instance

/-- A number as `strtoul` reads it: white space, an optional sign, and at
least one decimal digit. -/
def number_like (t : List Char) : Prop :=
  ∃ ws sg ds, t = ws ++ sg ++ ds ∧ (∀ c ∈ ws, isspace c = true)
    ∧ (sg = [] ∨ sg = ['+'] ∨ sg = ['-']) ∧ is_number ds

/-- A token that `parse_range` can read: a number, or two numbers joined by
`-`. -/
def token_ok (t : List Char) : Prop :=
  number_like t ∨ ∃ a b, t = a ++ '-' :: b ∧ number_like a ∧ number_like b

/-- The token of a run. -/
def run_tok (r : Int × Int) : Tok :=
  if r.1 = r.2 then .one (fmt_d r.1) else .two (fmt_d r.1) (fmt_d r.2)

/-- The set with which `idset_decode` starts: `idset_create (1024,
IDSET_FLAG_AUTOGROW)`. -/
def decode_start : idset :=
  { magic := IDSET_MAGIC, T := vebnew 1024, flags := IDSET_FLAG_AUTOGROW }

/-- The characters of a bracket-free text of tokens. -/
def body_char (c : Char) : Prop := isdigit c = true ∨ c = '-' ∨ c = ','

/-- A token in the strict grammar of the specification: a non-empty sequence
of decimal digits, or two of them joined by a single `-`. -/
def strict_token (t : List Char) : Prop :=
  is_number t ∨ ∃ a b, t = a ++ '-' :: b ∧ is_number a ∧ is_number b

/-- A token that `parse_range` rejects, or whose range `[lo, hi]` causes no
`int` overflow in the insertion loop and in the capacity doubling. -/
def safe_tok (t : List Char) : Bool :=
  match parse_range t with
  | none => true
  | some (hi, lo) => decide (-2147483648 < lo ∧ hi < 1073741823)

/-! ## Specification-level definitions for sequences of insertions -/

/-- A sequence of insertions, one after the other, as long as they return. -/
def insert_all : idset → List Int → Outcome idset
  | s, [] => .ok s
  | s, i :: is =>
    match idset_set s i with
    | .ok s1 => insert_all s1 is
    | .fail e => .fail e
    | .loops => .loops

/-- The capacity that inserting `i` asks for: the least power of two above
`i + 1` taken as an `int`. -/
def set_cap (i : Int) : Int := round_pow2 (wrap32 (i + 1) + 1)

/-- The member that inserting `i` adds, if any. -/
def set_new (i : Int) : List Int := if 0 ≤ i ∧ i < 1073741824 then [i] else []

/-! ## Decimal digits -/

theorem digit_char_toNat (d : Nat) (h : d < 10) : (digit_char d).toNat = 48 + d := by
  interval_cases d <;> rfl

theorem digit_char_isdigit (d : Nat) (h : d < 10) : isdigit (digit_char d) = true := by
  interval_cases d <;> rfl

theorem udigits_isdigit : ∀ (fuel n : Nat), ∀ c ∈ udigits fuel n, isdigit c = true := by
  intro fuel
  induction fuel with
  | zero => intro n c hc; simp [udigits] at hc
  | succ f ih =>
    intro n c hc
    unfold udigits at hc
    split at hc
    · rw [List.mem_singleton] at hc
      subst hc
      exact digit_char_isdigit n (by assumption)
    · rw [List.mem_append, List.mem_singleton] at hc
      rcases hc with hc | hc
      · exact ih _ c hc
      · subst hc
        exact digit_char_isdigit _ (Nat.mod_lt _ (by norm_num))

theorem udigits_ne_nil (fuel n : Nat) : udigits (fuel + 1) n ≠ [] := by
  unfold udigits
  split <;> simp

theorem digits_value_snoc (l : List Char) (c : Char) :
    digits_value (l ++ [c]) = digits_value l * 10 + (c.toNat - 48) := by
  simp [digits_value, List.foldl_append]

theorem digits_value_udigits : ∀ (fuel n : Nat), n < fuel → digits_value (udigits fuel n) = n := by
  intro fuel
  induction fuel with
  | zero => intro n h; omega
  | succ f ih =>
    intro n h
    unfold udigits
    split
    · rename_i h10
      simp [digits_value, digit_char_toNat n h10]
    · rename_i h10
      rw [digits_value_snoc, ih (n / 10) (by omega),
        digit_char_toNat _ (Nat.mod_lt _ (by norm_num))]
      omega

theorem fmt_d_nonneg (n : Int) (h : 0 ≤ n) : fmt_d n = udigits (n.toNat + 1) n.toNat := by
  unfold fmt_d
  rw [if_neg (by omega)]

theorem fmt_d_ne_nil (n : Int) : fmt_d n ≠ [] := by
  unfold fmt_d
  split
  · simp
  · exact udigits_ne_nil _ _

theorem fmt_d_isdigit (n : Int) (h : 0 ≤ n) : ∀ c ∈ fmt_d n, isdigit c = true := by
  rw [fmt_d_nonneg n h]
  exact udigits_isdigit _ _

theorem fmt_d_value (n : Int) (h : 0 ≤ n) : (digits_value (fmt_d n) : Int) = n := by
  rw [fmt_d_nonneg n h, digits_value_udigits _ _ (Nat.lt_succ_self _)]
  omega

/-- The first character of a `%d` rendering is a digit or the minus sign. -/
theorem fmt_d_head (n : Int) :
    ∃ c t, fmt_d n = c :: t ∧ (c = '-' ∨ isdigit c = true) := by
  unfold fmt_d
  split
  · exact ⟨_, _, rfl, Or.inl rfl⟩
  · have hne := udigits_ne_nil n.toNat n.toNat
    have hd := udigits_isdigit (n.toNat + 1) n.toNat
    cases hu : udigits (n.toNat + 1) n.toNat with
    | nil => exact absurd hu hne
    | cons c t =>
      rw [hu] at hd
      exact ⟨c, t, rfl, Or.inr (hd c (List.mem_cons_self _ _))⟩

/-! ## The store: successor and insertion -/

theorem foldl_succ_stable (x : Int) (l : List Int) (b : Int)
    (h : ∀ y ∈ l, ¬ (x ≤ y ∧ y < b)) :
    l.foldl (fun best y => if x ≤ y ∧ y < best then y else best) b = b := by
  induction l with
  | nil => rfl
  | cons a l ih =>
    rw [List.foldl_cons, if_neg (h a (List.mem_cons_self _ _))]
    exact ih (fun y hy => h y (List.mem_cons_of_mem _ hy))

theorem vebsucc_none (T : Veb) (x : Int) (h : ∀ y ∈ T.D, y < x) : vebsucc T x = T.M := by
  unfold vebsucc
  exact foldl_succ_stable x T.D T.M (fun y hy hc => by have := h y hy; omega)

theorem vebsucc_split (T : Veb) (pre : List Int) (a : Int) (rest : List Int) (x : Int)
    (hD : T.D = pre ++ a :: rest) (hv : valid T) (hpre : ∀ y ∈ pre, y < x) (hx : x ≤ a) :
    vebsucc T x = a := by
  obtain ⟨_, hs, hr⟩ := hv
  rw [hD] at hs hr
  unfold vebsucc
  rw [hD, List.foldl_append,
    foldl_succ_stable x pre T.M (fun y hy hc => by have := hpre y hy; omega),
    List.foldl_cons, if_pos ⟨hx, (hr a (by simp)).2⟩]
  apply foldl_succ_stable
  intro y hy hc
  have := (List.pairwise_cons.1 (List.pairwise_append.1 hs).2.1).1 y hy
  omega

theorem vebsucc_next (T : Veb) (pre : List Int) (a : Int) (rest : List Int)
    (hD : T.D = pre ++ a :: rest) (hv : valid T) :
    vebsucc T (a + 1) = next_of T.M rest := by
  have hs := hv.2.1
  rw [hD] at hs
  have hpa : ∀ y ∈ pre ++ [a], y < a + 1 := by
    intro y hy
    rw [List.mem_append, List.mem_singleton] at hy
    rcases hy with hy | hy
    · have := (List.pairwise_append.1 hs).2.2 y hy a (List.mem_cons_self _ _)
      omega
    · omega
  cases rest with
  | nil =>
    apply vebsucc_none
    intro y hy
    rw [hD] at hy
    exact hpa y (by simpa using hy)
  | cons b rest =>
    have hab := (List.pairwise_cons.1 (List.pairwise_append.1 hs).2.1).1 b
      (List.mem_cons_self _ _)
    exact vebsucc_split T (pre ++ [a]) b rest (a + 1) (by simp [hD]) hv hpa (by omega)

theorem vebsucc_zero (T : Veb) (hv : valid T) : vebsucc T 0 = next_of T.M T.D := by
  cases hD : T.D with
  | nil => exact vebsucc_none T 0 (by simp [hD])
  | cons a rest =>
    exact vebsucc_split T [] a rest 0 (by simp [hD]) hv (by simp)
      (hv.2.2 a (by simp [hD])).1

theorem sorted_length_le (M : Int) : ∀ (l : List Int) (lb : Int),
    l.Pairwise (fun a b => a < b) → (∀ x ∈ l, lb ≤ x ∧ x < M) →
    (l.length : Int) ≤ M - lb ∨ l = [] := by
  intro l
  induction l with
  | nil => intro lb _ _; exact Or.inr rfl
  | cons a l ih =>
    intro lb hs hr
    left
    have ha := hr a (List.mem_cons_self _ _)
    rw [List.pairwise_cons] at hs
    rcases ih (a + 1) hs.2 (fun x hx => ⟨by have := hs.1 x hx; omega,
      (hr x (List.mem_cons_of_mem _ hx)).2⟩) with h | h
    · simp only [List.length_cons]; push_cast; omega
    · subst h; simp; omega

theorem valid_length (T : Veb) (hv : valid T) : T.D.length ≤ T.M.toNat := by
  rcases sorted_length_le T.M T.D 0 hv.2.1 hv.2.2 with h | h
  · have := hv.1; omega
  · rw [h]; simp

/-! ## The encoder loops -/

theorem join_commas_cons2 (t u : List Char) (ts : List (List Char)) :
    join_commas (t :: u :: ts) = t ++ ',' :: join_commas (u :: ts) := rfl

theorem render_simple_cons2 (a b : Int) (l : List Int) :
    render_simple (a :: b :: l) = fmt_d a ++ ',' :: render_simple (b :: l) := rfl

theorem valid_mem_lt (T : Veb) (hv : valid T) (pre : List Int) (a : Int) (rest : List Int)
    (hD : T.D = pre ++ a :: rest) : 0 ≤ a ∧ a < T.M :=
  hv.2.2 a (by simp [hD])

theorem valid_next_lt (T : Veb) (hv : valid T) (pre : List Int) (a b : Int)
    (rest : List Int) (hD : T.D = pre ++ a :: b :: rest) : b < T.M :=
  (hv.2.2 b (by simp [hD])).2

theorem encode_simple_loop_spec (T : Veb) (hv : valid T) :
    ∀ (rest pre : List Int) (a : Int) (fuel : Nat) (count : Int) (s : List Char),
      T.D = pre ++ a :: rest → rest.length + 2 ≤ fuel →
      encode_simple_loop T fuel a count s
        = some (count + ((rest.length + 1 : Nat) : Int), s ++ render_simple (a :: rest)) := by
  intro rest
  induction rest with
  | nil =>
    intro pre a fuel count s hD hf
    obtain ⟨f, rfl⟩ : ∃ f, fuel = f + 2 := ⟨fuel - 2, by simp at hf; omega⟩
    have ha := valid_mem_lt T hv pre a [] hD
    have hn := vebsucc_next T pre a [] hD hv
    simp only [next_of] at hn
    simp [encode_simple_loop, hn, catprintf, render_simple, join_commas]
    omega
  | cons b rest ih =>
    intro pre a fuel count s hD hf
    obtain ⟨f, rfl⟩ : ∃ f, fuel = f + 1 := ⟨fuel - 1, by simp at hf; omega⟩
    have ha := valid_mem_lt T hv pre a (b :: rest) hD
    have hb := valid_next_lt T hv pre a b rest hD
    have hn := vebsucc_next T pre a (b :: rest) hD hv
    simp only [next_of] at hn
    have hD2 : T.D = (pre ++ [a]) ++ b :: rest := by simp [hD]
    have hrec := ih (pre ++ [a]) b f (count + 1) (catprintf s (fmt_d a ++ [','])) hD2
      (by simp at hf ⊢; omega)
    unfold encode_simple_loop
    rw [if_pos (by omega)]
    simp only [hn]
    rw [if_neg (by omega), hrec, render_simple_cons2]
    simp [catprintf]
    omega

theorem encode_simple_spec (T : Veb) (hv : valid T) (s : List Char) :
    encode_simple T s = some ((T.D.length : Int), s ++ render_simple T.D) := by
  unfold encode_simple
  rw [vebsucc_zero T hv]
  have hlen := valid_length T hv
  cases hD : T.D with
  | nil => simp [next_of, encode_simple_loop, render_simple, join_commas]
  | cons a rest =>
    rw [hD] at hlen
    have := encode_simple_loop_spec T hv rest [] a (T.M.toNat + 1) 0 s (by simp [hD])
      (by simp at hlen ⊢; omega)
    simp only [next_of]
    rw [this]
    simp

theorem runs_from_ne_nil (l : List Int) : ∀ (lo hi : Int), runs_from lo hi l ≠ [] := by
  induction l with
  | nil => intro lo hi; simp [runs_from]
  | cons a l ih =>
    intro lo hi
    unfold runs_from
    split
    · exact ih _ _
    · simp

theorem join_commas_cons_ne_nil (t : List Char) (ts : List (List Char)) (h : ts ≠ []) :
    join_commas (t :: ts) = t ++ ',' :: join_commas ts := by
  cases ts with
  | nil => exact absurd rfl h
  | cons u ts => rfl

theorem encode_ranged_loop_spec (T : Veb) (hv : valid T) :
    ∀ (rest pre : List Int) (a : Int) (fuel : Nat) (lo hi count : Int) (s : List Char),
      T.D = pre ++ a :: rest → rest.length + 2 ≤ fuel →
      encode_ranged_loop T fuel a lo hi false count s
        = some (count + ((rest.length + 1 : Nat) : Int),
            s ++ join_commas ((runs_from lo hi (a :: rest)).map render_run)) := by
  intro rest
  induction rest with
  | nil =>
    intro pre a fuel lo hi count s hD hf
    obtain ⟨f, rfl⟩ : ∃ f, fuel = f + 2 := ⟨fuel - 2, by simp at hf; omega⟩
    have ha := valid_mem_lt T hv pre a [] hD
    have hn := vebsucc_next T pre a [] hD hv
    simp only [next_of] at hn
    rw [encode_ranged_loop, if_pos ha.2]
    simp only [hn, decide_True, if_true]
    rw [encode_ranged_loop, if_neg (lt_irrefl _)]
    by_cases h : a = hi + 1
    · simp [h, runs_from, join_commas, catrange, catprintf, render_run]
      split <;> simp
    · simp [h, runs_from, join_commas, catrange, catprintf, render_run]
      split <;> simp
  | cons b rest ih =>
    intro pre a fuel lo hi count s hD hf
    obtain ⟨f, rfl⟩ : ∃ f, fuel = f + 1 := ⟨fuel - 1, by simp at hf; omega⟩
    have ha := valid_mem_lt T hv pre a (b :: rest) hD
    have hb := valid_next_lt T hv pre a b rest hD
    have hn := vebsucc_next T pre a (b :: rest) hD hv
    simp only [next_of] at hn
    have hD2 : T.D = (pre ++ [a]) ++ b :: rest := by simp [hD]
    have hbM : ¬ b = T.M := by omega
    unfold encode_ranged_loop
    rw [if_pos ha.2]
    simp only [hn, hbM, decide_False, Bool.false_eq_true, if_false]
    by_cases h : a = hi + 1
    · rw [if_pos h]
      rw [ih (pre ++ [a]) b f lo (hi + 1) (count + 1) s hD2 (by simp at hf ⊢; omega)]
      rw [runs_from.eq_def lo hi (a :: b :: rest)]
      simp only [h, if_true]
      simp
      omega
    · rw [if_neg h]
      rw [ih (pre ++ [a]) b f a a (count + 1) _ hD2 (by simp at hf ⊢; omega)]
      rw [runs_from.eq_def lo hi (a :: b :: rest)]
      simp only [h, if_false, List.map_cons]
      rw [join_commas_cons_ne_nil _ _ (by simpa using runs_from_ne_nil _ _ _)]
      simp [catrange, catprintf, render_run]
      constructor
      · omega
      · split <;> simp

theorem runs_from_eq (l : List Int) : ∀ (lo hi : Int),
    runs_from lo hi l =
      match runs l with
      | [] => [(lo, hi)]
      | (l2, h2) :: rs => if l2 = hi + 1 then (lo, h2) :: rs else (lo, hi) :: (l2, h2) :: rs := by
  induction l with
  | nil => intro lo hi; simp [runs_from, runs]
  | cons a l ih =>
    intro lo hi
    rw [runs_from, ih, ih, runs]
    cases hr : runs l with
    | nil => by_cases h : a = hi + 1 <;> simp [h]
    | cons r rs =>
      obtain ⟨l3, h3⟩ := r
      by_cases h : a = hi + 1
      · by_cases h2 : l3 = a + 1
        · have h2' : l3 = hi + 1 + 1 := by omega
          simp [h, h2']
        · have h2' : ¬ l3 = hi + 1 + 1 := by omega
          simp [h, h2']
      · by_cases h2 : l3 = a + 1 <;> simp [h, h2]

theorem runs_from_self (a : Int) (l : List Int) : runs_from a a l = runs (a :: l) := by
  rw [runs_from_eq, runs]

theorem encode_ranged_spec (T : Veb) (hv : valid T) (s : List Char) :
    encode_ranged T s = some ((T.D.length : Int), s ++ render_ranged T.D) := by
  unfold encode_ranged
  rw [vebsucc_zero T hv]
  have hlen := valid_length T hv
  cases hD : T.D with
  | nil => simp [next_of, encode_ranged_loop, render_ranged, runs, join_commas]
  | cons a rest =>
    rw [hD] at hlen
    have ha := valid_mem_lt T hv [] a rest (by simp [hD])
    have hn := vebsucc_next T [] a rest (by simp [hD]) hv
    simp only [next_of]
    obtain ⟨f, hf⟩ : ∃ f, T.M.toNat = f + 1 := ⟨T.M.toNat - 1, by omega⟩
    rw [hf]
    unfold encode_ranged_loop
    rw [if_pos ha.2]
    simp only [if_true, hn]
    cases rest with
    | nil =>
      simp only [next_of]
      cases f with
      | zero => simp [encode_ranged_loop, catrange, catprintf, render_ranged, runs,
          join_commas, render_run]
      | succ g => simp [encode_ranged_loop, catrange, catprintf, render_ranged, runs,
          join_commas, render_run]
    | cons b rest =>
      have hb := valid_next_lt T hv [] a b rest (by simp [hD])
      have hbM : ¬ b = T.M := by omega
      simp only [next_of, hbM, decide_False, Bool.false_eq_true, if_false]
      rw [encode_ranged_loop_spec T hv rest [a] b (f + 1) a a (0 + 1) s (by simp [hD])
        (by simp at hlen ⊢; omega)]
      rw [runs_from_self, render_ranged]
      simp
      omega

/-! ## `idset_encode` against the reference renderings -/

theorem fmt_d_head_ne_bracket (n : Int) : (fmt_d n).head? ≠ some '[' := by
  obtain ⟨c, t, hc, h⟩ := fmt_d_head n
  rw [hc]
  simp only [List.head?_cons, ne_eq, Option.some.injEq]
  rintro rfl
  rcases h with h | h
  · exact absurd h (by decide)
  · exact absurd h (by decide)

/-- The text between the brackets, by mode. -/
theorem encode_body_head (l : List Int) (h : l.length ≤ 1) (r : Bool) :
    (if r then render_ranged l else render_simple l).head? ≠ some '[' := by
  match l, h with
  | [], _ => cases r <;> simp [render_ranged, render_simple, runs, join_commas]
  | [a], _ =>
    cases r
    · simpa [render_simple, join_commas] using fmt_d_head_ne_bracket a
    · simpa [render_ranged, runs, render_run, join_commas] using fmt_d_head_ne_bracket a

theorem idset_encode_core (s : idset) (hs : valid_set s) (flags : Nat)
    (hf : has_other_bits flags (IDSET_FLAG_BRACKETS ||| IDSET_FLAG_RANGE) = false) :
    idset_encode (some s) flags =
      .ok (if flags &&& IDSET_FLAG_BRACKETS ≠ 0 ∧ 2 ≤ s.T.D.length then
            '[' :: ((if flags &&& IDSET_FLAG_RANGE ≠ 0 then render_ranged s.T.D
              else render_simple s.T.D) ++ [']'])
          else (if flags &&& IDSET_FLAG_RANGE ≠ 0 then render_ranged s.T.D
              else render_simple s.T.D)) := by
  obtain ⟨hm, hv⟩ := hs
  unfold idset_encode
  simp only [hm, hf, ne_eq, not_true_eq_false, Bool.false_eq_true, or_self, if_false]
  by_cases hl : 2 ≤ s.T.D.length
  · have h1 : ¬ ((s.T.D.length : Int) ≤ 1) := by omega
    have h2 : (s.T.D.length : Int) > 1 := by omega
    by_cases hr : flags &&& IDSET_FLAG_RANGE = 0 <;>
      by_cases hb : flags &&& IDSET_FLAG_BRACKETS = 0 <;>
      simp [hr, hb, hl, h1, h2, encode_ranged_spec s.T hv, encode_simple_spec s.T hv,
        catprintf]
  · have h1 : (s.T.D.length : Int) ≤ 1 := by omega
    have h2 : ¬ (s.T.D.length : Int) > 1 := by omega
    have h3 := encode_body_head s.T.D (by omega) true
    have h4 := encode_body_head s.T.D (by omega) false
    simp only [if_true, Bool.false_eq_true, if_false] at h3 h4
    by_cases hr : flags &&& IDSET_FLAG_RANGE = 0 <;>
      by_cases hb : flags &&& IDSET_FLAG_BRACKETS = 0 <;>
      simp [hr, hb, hl, h1, h2, h3, h4, encode_ranged_spec s.T hv,
        encode_simple_spec s.T hv, catprintf]

theorem flag_bits :
    (4 : Nat) &&& 2 = 0 ∧ (2 : Nat) &&& 4 = 0 ∧ (2 : Nat) ||| 4 = 6 ∧ (4 : Nat) ||| 2 = 6
      ∧ (6 : Nat) &&& 2 = 2 ∧ (6 : Nat) &&& 4 = 4 := by
  decide

theorem run_ids_cons (lo hi : Int) (h : lo ≤ hi) :
    run_ids (lo, hi) = lo :: run_ids (lo + 1, hi) := by
  unfold run_ids
  obtain ⟨n, hn⟩ : ∃ n : Nat, (hi - lo + 1).toNat = n + 1 := ⟨(hi - lo).toNat, by omega⟩
  have hn2 : (hi - (lo + 1) + 1).toNat = n := by omega
  rw [hn, hn2, List.range_succ_eq_map, List.map_cons, List.map_map]
  simp only [Nat.cast_zero, add_zero, List.cons.injEq, true_and]
  apply List.map_congr_left
  intro k _
  simp only [Function.comp, Nat.cast_succ]
  omega

theorem run_ids_self (a : Int) : run_ids (a, a) = [a] := by
  have h : (a - a + 1).toNat = 1 := by omega
  simp only [run_ids, h]
  simp [List.range_succ]

theorem runs_le (l : List Int) : ∀ r ∈ runs l, r.1 ≤ r.2 := by
  induction l with
  | nil => simp [runs]
  | cons a l ih =>
    rw [runs]
    cases hr : runs l with
    | nil => simp
    | cons r rs =>
      obtain ⟨lo, hi⟩ := r
      rw [hr] at ih
      have h1 := ih (lo, hi) (List.mem_cons_self _ _)
      simp only at h1
      by_cases h : lo = a + 1
      · simp only [h, if_true, List.mem_cons]
        rintro r (rfl | hr2)
        · simp only; omega
        · exact ih r (List.mem_cons_of_mem _ hr2)
      · simp only [h, if_false, List.mem_cons]
        rintro r (rfl | rfl | hr2)
        · simp
        · exact h1
        · exact ih r (List.mem_cons_of_mem _ hr2)

theorem runs_flatten (l : List Int) : ((runs l).map run_ids).flatten = l := by
  induction l with
  | nil => simp [runs]
  | cons a l ih =>
    have hle := runs_le l
    rw [runs]
    cases hr : runs l with
    | nil =>
      rw [hr] at ih
      simp at ih
      simp [run_ids_self, ← ih]
    | cons r rs =>
      obtain ⟨lo, hi⟩ := r
      rw [hr] at ih hle
      have h1 := hle (lo, hi) (List.mem_cons_self _ _)
      simp only at h1
      by_cases h : lo = a + 1
      · simp only [h, if_true, List.map_cons, List.flatten_cons]
        rw [run_ids_cons a hi (by omega), ← h, List.cons_append]
        simpa using ih
      · simp only [h, if_false, List.map_cons, List.flatten_cons, run_ids_self]
        simpa using ih

theorem runs_head (a : Int) (l : List Int) :
    ∃ hi rs, runs (a :: l) = (a, hi) :: rs := by
  rw [runs]
  cases runs l with
  | nil => exact ⟨_, _, rfl⟩
  | cons r rs =>
    obtain ⟨lo, hi⟩ := r
    by_cases h : lo = a + 1
    · exact ⟨hi, rs, by simp [h]⟩
    · exact ⟨a, (lo, hi) :: rs, by simp [h]⟩

theorem runs_separated (l : List Int) (hs : l.Pairwise (fun a b => a < b)) :
    (runs l).Chain' (fun r1 r2 => r1.2 + 1 < r2.1) := by
  induction l with
  | nil => simp [runs]
  | cons a l ih =>
    rw [List.pairwise_cons] at hs
    have ih := ih hs.2
    cases l with
    | nil => simp [runs]
    | cons b l =>
      obtain ⟨hi, rs, hr⟩ := runs_head b l
      rw [runs, hr]
      rw [hr] at ih
      have hab := hs.1 b (List.mem_cons_self _ _)
      by_cases h : b = a + 1
      · simp only [h, if_true]
        cases rs with
        | nil => simp
        | cons r2 rs =>
          rw [List.chain'_cons] at ih ⊢
          exact ih
      · simp only [h, if_false]
        rw [List.chain'_cons]
        exact ⟨by simp only; omega, ih⟩

/-! ## Encoder claims -/

/-- C10: simple-mode encoding.  For every valid set `s`, `idset_encode (s, 0)`
returns the decimal renderings of the members of `s`, in their strictly
ascending order, joined by single commas; every rendering consists of decimal
digits only (no range compression) and denotes its member. -/
theorem simple_mode_encoding (s : idset) (hs : valid_set s) :
    idset_encode (some s) 0 = .ok (join_commas (s.T.D.map fmt_d))
      ∧ s.T.D.Pairwise (fun a b => a < b)
      ∧ ∀ n ∈ s.T.D, (∀ c ∈ fmt_d n, isdigit c = true) ∧ (digits_value (fmt_d n) : Int) = n := by
  refine ⟨?_, hs.2.2.1, fun n hn => ?_⟩
  · rw [idset_encode_core s hs 0 (by decide)]
    simp [render_simple]
  · have h0 := (hs.2.2.2 n hn).1
    exact ⟨fmt_d_isdigit n h0, fmt_d_value n h0⟩

/-- Witness for C10: the set `{1,2,3}` encodes to `1,2,3` in simple mode. -/
theorem simple_mode_encoding_witness :
    idset_encode (some ⟨IDSET_MAGIC, ⟨1024, [1, 2, 3]⟩, 1⟩) 0 = .ok "1,2,3".toList :=
  (simple_mode_encoding ⟨IDSET_MAGIC, ⟨1024, [1, 2, 3]⟩, 1⟩ (by decide)).1

/-- C2: range-mode encoding equals the reference rendering.  For every valid
set, `idset_encode (s, IDSET_FLAG_RANGE)` is the comma-joined list of the
maximal runs of consecutive members, a run written `lo` when `lo = hi` and
`lo-hi` otherwise, and with brackets requested the same text is wrapped when
there are two or more members.  The runs are well-formed intervals, their
concatenation is exactly the ascending member list (so every member lies in
exactly one token), and consecutive runs are separated by a gap (maximality). -/
theorem ranged_encoding_reference (s : idset) (hs : valid_set s) :
    idset_encode (some s) IDSET_FLAG_RANGE
        = .ok (join_commas ((runs s.T.D).map render_run))
      ∧ idset_encode (some s) (IDSET_FLAG_BRACKETS ||| IDSET_FLAG_RANGE)
        = .ok (if 2 ≤ s.T.D.length then
              '[' :: (join_commas ((runs s.T.D).map render_run) ++ [']'])
            else join_commas ((runs s.T.D).map render_run))
      ∧ ((runs s.T.D).map run_ids).flatten = s.T.D
      ∧ (∀ r ∈ runs s.T.D, r.1 ≤ r.2)
      ∧ (runs s.T.D).Chain' (fun r1 r2 => r1.2 + 1 < r2.1) := by
  refine ⟨?_, ?_, runs_flatten _, runs_le _, runs_separated _ hs.2.2.1⟩
  · rw [idset_encode_core s hs _ (by decide)]
    simp [render_ranged, IDSET_FLAG_RANGE, IDSET_FLAG_BRACKETS, flag_bits]
  · rw [idset_encode_core s hs _ (by decide)]
    simp [render_ranged, IDSET_FLAG_RANGE, IDSET_FLAG_BRACKETS, flag_bits]

/-- Witness for C2: `{1,2,3,7,9,10}` with brackets and ranges encodes to
`[1-3,7,9-10]`. -/
theorem ranged_encoding_reference_witness :
    idset_encode (some ⟨IDSET_MAGIC, ⟨1024, [1, 2, 3, 7, 9, 10]⟩, 1⟩)
      (IDSET_FLAG_BRACKETS ||| IDSET_FLAG_RANGE) = .ok "[1-3,7,9-10]".toList :=
  (ranged_encoding_reference ⟨IDSET_MAGIC, ⟨1024, [1, 2, 3, 7, 9, 10]⟩, 1⟩ (by decide)).2.1

/-- C5: bracket policy.  For every valid set `s` and both modes `m` (simple
`0` and `IDSET_FLAG_RANGE`), `idset_encode (s, m)` returns the body of that
mode, and `idset_encode (s, m | IDSET_FLAG_BRACKETS)` returns the same body
when `s` has at most one member and the body wrapped in `[` `]` when `s` has
two or more members; the decision is on the number of members. -/
theorem bracket_policy (s : idset) (hs : valid_set s) (m : Nat)
    (hm : m = 0 ∨ m = IDSET_FLAG_RANGE) :
    idset_encode (some s) m
        = .ok (if m = IDSET_FLAG_RANGE then render_ranged s.T.D else render_simple s.T.D)
      ∧ idset_encode (some s) (m ||| IDSET_FLAG_BRACKETS)
        = .ok (if s.T.D.length ≤ 1 then
              (if m = IDSET_FLAG_RANGE then render_ranged s.T.D else render_simple s.T.D)
            else '[' :: ((if m = IDSET_FLAG_RANGE then render_ranged s.T.D
              else render_simple s.T.D) ++ [']'])) := by
  rcases hm with rfl | rfl
  · constructor
    · rw [idset_encode_core s hs _ (by decide)]
      simp [IDSET_FLAG_RANGE, IDSET_FLAG_BRACKETS, flag_bits]
    · rw [idset_encode_core s hs _ (by decide)]
      by_cases hl : 2 ≤ s.T.D.length
      · have : ¬ s.T.D.length ≤ 1 := by omega
        simp [IDSET_FLAG_RANGE, IDSET_FLAG_BRACKETS, flag_bits, hl, this]
      · have : s.T.D.length ≤ 1 := by omega
        simp [IDSET_FLAG_RANGE, IDSET_FLAG_BRACKETS, flag_bits, hl, this]
  · constructor
    · rw [idset_encode_core s hs _ (by decide)]
      simp [IDSET_FLAG_RANGE, IDSET_FLAG_BRACKETS, flag_bits]
    · rw [idset_encode_core s hs _ (by decide)]
      by_cases hl : 2 ≤ s.T.D.length
      · have : ¬ s.T.D.length ≤ 1 := by omega
        simp [IDSET_FLAG_RANGE, IDSET_FLAG_BRACKETS, flag_bits, hl, this]
      · have : s.T.D.length ≤ 1 := by omega
        simp [IDSET_FLAG_RANGE, IDSET_FLAG_BRACKETS, flag_bits, hl, this]

/-- Witness for C5: the singleton `{5}` with brackets and ranges encodes to
`5`, and `{1,2,3}` to `[1-3]`. -/
theorem bracket_policy_witness :
    idset_encode (some ⟨IDSET_MAGIC, ⟨1024, [5]⟩, 1⟩)
        (IDSET_FLAG_RANGE ||| IDSET_FLAG_BRACKETS) = .ok "5".toList
      ∧ idset_encode (some ⟨IDSET_MAGIC, ⟨1024, [1, 2, 3]⟩, 1⟩)
        (IDSET_FLAG_RANGE ||| IDSET_FLAG_BRACKETS) = .ok "[1-3]".toList :=
  ⟨(bracket_policy ⟨IDSET_MAGIC, ⟨1024, [5]⟩, 1⟩ (by decide) IDSET_FLAG_RANGE
      (Or.inr rfl)).2,
   (bracket_policy ⟨IDSET_MAGIC, ⟨1024, [1, 2, 3]⟩, 1⟩ (by decide) IDSET_FLAG_RANGE
      (Or.inr rfl)).2⟩

/-! ## Powers of two and the rounding of `vebnew` -/

theorem two_pow_lt (a b : Nat) : (2 : Int) ^ a < 2 ^ b ↔ a < b :=
  pow_lt_pow_iff_right₀ (by norm_num)

theorem two_pow_le (a b : Nat) : (2 : Int) ^ a ≤ 2 ^ b ↔ a ≤ b :=
  pow_le_pow_iff_right₀ (by norm_num)

theorem two_pow_pos (a : Nat) : (1 : Int) ≤ 2 ^ a := one_le_pow₀ (by norm_num)

theorem two_pow_30 : (2 : Int) ^ 30 = 1073741824 := by norm_num

theorem two_pow_le_30 (e : Nat) (he : e ≤ 30) : (2 : Int) ^ e ≤ 1073741824 := by
  rw [← two_pow_30]
  exact (two_pow_le e 30).2 he

theorem least_exp_unique (n : Int) (a b : Nat) (ha : least_exp n a) (hb : least_exp n b) :
    a = b := by
  obtain ⟨ha1, ha2⟩ := ha
  obtain ⟨hb1, hb2⟩ := hb
  have key : ∀ (x y : Nat), n ≤ 2 ^ x → (y = 0 ∨ (2 : Int) ^ (y - 1) < n) → y ≤ x := by
    intro x y hx hy
    rcases hy with rfl | hy
    · omega
    · have := (two_pow_lt (y - 1) x).1 (lt_of_lt_of_le hy hx)
      omega
  have h1 := key a b ha1 hb2
  have h2 := key b a hb1 ha2
  omega

theorem least_exp_self (e : Nat) : least_exp (2 ^ e) e := by
  refine ⟨le_refl _, ?_⟩
  rcases Nat.eq_zero_or_pos e with h | h
  · exact Or.inl h
  · exact Or.inr ((two_pow_lt (e - 1) e).2 (by omega))

theorem round_pow2_loop_spec (n : Int) : ∀ (f : Nat) (p : Int), 1 ≤ p → n ≤ p * 2 ^ f →
    ∃ k : Nat, round_pow2_loop f p n = p * 2 ^ k ∧ n ≤ p * 2 ^ k
      ∧ (k = 0 ∨ p * 2 ^ (k - 1) < n) := by
  intro f
  induction f with
  | zero =>
    intro p _ h
    exact ⟨0, by simp [round_pow2_loop], by simpa using h, Or.inl rfl⟩
  | succ f ih =>
    intro p hp h
    by_cases hlt : p < n
    · obtain ⟨k, hk1, hk2, hk3⟩ := ih (p * 2) (by omega) (by rw [pow_succ] at h; linarith)
      refine ⟨k + 1, ?_, ?_, Or.inr ?_⟩
      · rw [round_pow2_loop, if_pos hlt, hk1, pow_succ]
        ring
      · rw [pow_succ]
        linarith
      · rcases hk3 with rfl | hk3
        · simpa using hlt
        · rcases Nat.eq_zero_or_pos k with h0 | h0
          · subst h0
            simpa using hlt
          · obtain ⟨j, rfl⟩ : ∃ j, k = j + 1 := ⟨k - 1, by omega⟩
            simp only [Nat.add_sub_cancel] at hk3 ⊢
            rw [pow_succ]
            linarith
    · exact ⟨0, by simp [round_pow2_loop, hlt], by simpa using not_lt.1 hlt, Or.inl rfl⟩

theorem round_pow2_spec (n : Int) : ∃ e : Nat, round_pow2 n = 2 ^ e ∧ least_exp n e := by
  have hb : n ≤ 1 * 2 ^ n.toNat := by
    rcases le_or_lt n 0 with h | h
    · have := two_pow_pos n.toNat
      omega
    · have h1 : (n.toNat : Int) < ((2 ^ n.toNat : Nat) : Int) := by
        exact_mod_cast Nat.lt_two_pow n.toNat
      have h2 : (n.toNat : Int) = n := Int.toNat_of_nonneg (le_of_lt h)
      push_cast at h1
      omega
  obtain ⟨k, hk1, hk2, hk3⟩ := round_pow2_loop_spec n n.toNat 1 (le_refl _) hb
  refine ⟨k, by simpa [round_pow2] using hk1, by simpa using hk2, ?_⟩
  rcases hk3 with h | h
  · exact Or.inl h
  · exact Or.inr (by simpa using h)

theorem round_pow2_id (e : Nat) : round_pow2 (2 ^ e) = 2 ^ e := by
  obtain ⟨x, hx1, hx2⟩ := round_pow2_spec (2 ^ e)
  rw [hx1, least_exp_unique _ x e hx2 (least_exp_self e)]

theorem le_round_pow2 (n : Int) : n ≤ round_pow2 n := by
  obtain ⟨x, hx1, hx2⟩ := round_pow2_spec n
  rw [hx1]
  exact hx2.1

theorem round_pow2_pow2 (n : Int) : is_pow2 (round_pow2 n) := by
  obtain ⟨x, hx1, _⟩ := round_pow2_spec n
  exact ⟨x, hx1⟩

/-- The capacity after growth from `2^e` for `slots`: a power of two of at
most `2^30` that exceeds `slots`. -/
theorem grow_cap (e : Nat) (he : e ≤ 30) (slots : Int) (hs : slots < 1073741824) :
    ∃ y : Nat, y ≤ 30 ∧ e ≤ y ∧ max ((2 : Int) ^ e) (round_pow2 (slots + 1)) = 2 ^ y
      ∧ slots < 2 ^ y := by
  obtain ⟨x, hx1, hx2, hx3⟩ := round_pow2_spec (slots + 1)
  have hx30 : x ≤ 30 := by
    rcases hx3 with rfl | hx3
    · omega
    · have : (2 : Int) ^ (x - 1) < 2 ^ 30 := by
        rw [two_pow_30]
        omega
      have := (two_pow_lt (x - 1) 30).1 this
      omega
  rw [hx1]
  rcases le_total e x with h | h
  · refine ⟨x, hx30, h, max_eq_right ((two_pow_le e x).2 h), by omega⟩
  · have := (two_pow_le x e).2 h
    exact ⟨e, he, le_refl _, max_eq_left this, by omega⟩

/-! ## Insertion into the store -/

theorem mem_insert_id (x z : Int) (l : List Int) : z ∈ insert_id x l ↔ z = x ∨ z ∈ l := by
  induction l with
  | nil => simp [insert_id]
  | cons y ys ih =>
    unfold insert_id
    split
    · simp
    · split
      · rename_i h
        subst h
        simp
      · simp only [List.mem_cons, ih]
        tauto

theorem insert_id_sorted (x : Int) (l : List Int) (hs : l.Pairwise (fun a b => a < b)) :
    (insert_id x l).Pairwise (fun a b => a < b) := by
  induction l with
  | nil => simp [insert_id]
  | cons y ys ih =>
    rw [List.pairwise_cons] at hs
    unfold insert_id
    split
    · rename_i h
      refine List.pairwise_cons.2 ⟨?_, List.pairwise_cons.2 hs⟩
      intro z hz
      rcases List.mem_cons.1 hz with rfl | hz
      · exact h
      · have := hs.1 z hz
        omega
    · split
      · exact List.pairwise_cons.2 hs
      · refine List.pairwise_cons.2 ⟨?_, ih hs.2⟩
        intro z hz
        rcases (mem_insert_id x z ys).1 hz with rfl | hz
        · omega
        · exact hs.1 z hz

theorem insert_id_last (x : Int) (l : List Int) (h : ∀ y ∈ l, y < x) :
    insert_id x l = l ++ [x] := by
  induction l with
  | nil => rfl
  | cons y ys ih =>
    have hy := h y (List.mem_cons_self _ _)
    unfold insert_id
    rw [if_neg (by omega), if_neg (by omega), ih (fun z hz => h z (List.mem_cons_of_mem _ hz))]
    rfl

theorem insert_id_of_mem (x : Int) (l : List Int) (hs : l.Pairwise (fun a b => a < b))
    (h : x ∈ l) : insert_id x l = l := by
  induction l with
  | nil => simp at h
  | cons y ys ih =>
    rw [List.pairwise_cons] at hs
    unfold insert_id
    rcases List.mem_cons.1 h with rfl | hx
    · simp
    · have := hs.1 x hx
      rw [if_neg (by omega), if_neg (by omega), ih hs.2 hx]

theorem vebput_M (T : Veb) (x : Int) : (vebput T x).M = T.M := by
  unfold vebput
  split <;> rfl

theorem vebput_D (T : Veb) (x : Int) (h : 0 ≤ x ∧ x < T.M) :
    (vebput T x).D = insert_id x T.D := by
  unfold vebput
  rw [if_pos h]

theorem vebput_valid (T : Veb) (x : Int) (hv : valid T) : valid (vebput T x) := by
  unfold vebput
  split
  · rename_i h
    refine ⟨hv.1, insert_id_sorted x T.D hv.2.1, ?_⟩
    intro z hz
    rcases (mem_insert_id x z T.D).1 hz with rfl | hz
    · exact h
    · exact hv.2.2 z hz
  · exact hv

/-! ## Growth -/

theorem wrap32_id (x : Int) (h1 : -2147483648 ≤ x) (h2 : x < 2147483648) : wrap32 x = x := by
  unfold wrap32
  omega

theorem grow_loop_spec (slots : Int) (hs : slots < 1073741824) :
    ∀ (f : Nat) (n : Int), 1 ≤ n → n < 2147483648 → slots < n * 2 ^ f →
      ∃ k : Nat, grow_loop (f + 1) n slots = some (n * 2 ^ k) ∧ slots < n * 2 ^ k
        ∧ (k = 0 ∨ n * 2 ^ (k - 1) ≤ slots) := by
  intro f
  induction f with
  | zero =>
    intro n h1 h2 h3
    refine ⟨0, ?_, by simpa using h3, Or.inl rfl⟩
    simp only [pow_zero, mul_one] at h3
    simp [grow_loop, not_le.2 h3]
  | succ f ih =>
    intro n h1 h2 h3
    by_cases h : n ≤ slots
    · have hw : wrap32 (n * 2) = n * 2 := wrap32_id _ (by omega) (by omega)
      obtain ⟨k, hk1, hk2, hk3⟩ := ih (n * 2) (by omega) (by omega)
        (by rw [pow_succ] at h3; linarith)
      refine ⟨k + 1, ?_, ?_, Or.inr ?_⟩
      · rw [grow_loop, if_pos h, hw, hk1, pow_succ]
        congr 1
        ring
      · rw [pow_succ]
        linarith
      · rcases hk3 with rfl | hk3
        · simpa using h
        · obtain ⟨j, rfl⟩ : ∃ j, k = j + 1 := ⟨k - 1, by
            rcases Nat.eq_zero_or_pos k with h0 | h0
            · subst h0
              simp at hk3
              omega
            · omega⟩
          simp only [Nat.add_sub_cancel] at hk3 ⊢
          rw [pow_succ]
          linarith
    · exact ⟨0, by simp [grow_loop, h], by simpa using not_le.1 h, Or.inl rfl⟩

theorem grow_copy_spec (old : Veb) (hv : valid old) :
    ∀ (rest pre : List Int) (a : Int) (fuel : Nat) (T : Veb),
      old.D = pre ++ a :: rest → rest.length + 2 ≤ fuel → old.M ≤ T.M → T.D = pre →
      grow_copy old fuel a T = some { M := T.M, D := old.D } := by
  intro rest
  induction rest with
  | nil =>
    intro pre a fuel T hD hf hM hT
    obtain ⟨f, rfl⟩ : ∃ f, fuel = f + 2 := ⟨fuel - 2, by simp at hf; omega⟩
    have ha := valid_mem_lt old hv pre a [] hD
    have hn := vebsucc_next old pre a [] hD hv
    simp only [next_of] at hn
    have hs := hv.2.1
    rw [hD] at hs
    have hpre : ∀ y ∈ T.D, y < a := fun y hy =>
      (List.pairwise_append.1 hs).2.2 y (hT ▸ hy) a (List.mem_cons_self _ _)
    rw [grow_copy, if_pos ha.2, hn, grow_copy, if_neg (lt_irrefl _)]
    have hput : vebput T a = { M := T.M, D := T.D ++ [a] } := by
      unfold vebput
      rw [if_pos ⟨ha.1, by omega⟩, insert_id_last a T.D hpre]
    rw [hput, hT, hD]
  | cons b rest ih =>
    intro pre a fuel T hD hf hM hT
    obtain ⟨f, rfl⟩ : ∃ f, fuel = f + 1 := ⟨fuel - 1, by simp at hf; omega⟩
    have ha := valid_mem_lt old hv pre a (b :: rest) hD
    have hn := vebsucc_next old pre a (b :: rest) hD hv
    simp only [next_of] at hn
    have hs := hv.2.1
    rw [hD] at hs
    have hpre : ∀ y ∈ T.D, y < a := fun y hy =>
      (List.pairwise_append.1 hs).2.2 y (hT ▸ hy) a (List.mem_cons_self _ _)
    have hput : vebput T a = { M := T.M, D := T.D ++ [a] } := by
      unfold vebput
      rw [if_pos ⟨ha.1, by omega⟩, insert_id_last a T.D hpre]
    rw [grow_copy, if_pos ha.2, hn, hput]
    exact ih (pre ++ [a]) b f _ (by simp [hD]) (by simp at hf ⊢; omega) hM (by simp [hT])

theorem grow_copy_all (old : Veb) (hv : valid old) (n : Int) (hn : old.M ≤ n) :
    grow_copy old (old.M.toNat + 1) (vebsucc old 0) (vebnew n)
      = some { M := round_pow2 n, D := old.D } := by
  rw [vebsucc_zero old hv]
  have hlen := valid_length old hv
  have hr := le_round_pow2 n
  cases hD : old.D with
  | nil =>
    simp [next_of, grow_copy, vebnew]
  | cons a rest =>
    rw [hD] at hlen
    simp only [next_of]
    rw [grow_copy_spec old hv rest [] a _ (vebnew n) (by simp [hD])
      (by simp at hlen ⊢; omega) (by simp only [vebnew]; omega) rfl]
    simp [vebnew, hD]

/-- Whenever `idset_grow` returns, the members and the flags are as before
and the capacity did not shrink. -/
theorem idset_grow_returns (s s1 : idset) (slots : Int) (hv : valid s.T)
    (h : idset_grow s slots = .ok s1) :
    s1.T.D = s.T.D ∧ s1.flags = s.flags ∧ s1.magic = s.magic ∧ s.T.M ≤ s1.T.M
      ∧ slots < s1.T.M := by
  unfold idset_grow at h
  cases hg : grow_loop 64 s.T.M slots with
  | none => simp [hg] at h
  | some n =>
    have hslots : slots < n := by
      have key : ∀ (f : Nat) (m r : Int), grow_loop f m slots = some r → slots < r := by
        intro f
        induction f with
        | zero => intro m r hm; simp [grow_loop] at hm
        | succ f ih =>
          intro m r hm
          rw [grow_loop] at hm
          split at hm
          · exact ih _ _ hm
          · simp only [Option.some.injEq] at hm
            omega
      exact key _ _ _ hg
    simp only [hg] at h
    by_cases hn : n > s.T.M
    · rw [if_pos hn, grow_copy_all s.T hv n (le_of_lt hn)] at h
      simp only [Outcome.ok.injEq] at h
      subst h
      have hr := le_round_pow2 n
      exact ⟨rfl, rfl, rfl, by simp only; omega, by simp only; omega⟩
    · rw [if_neg hn] at h
      simp only [Outcome.ok.injEq] at h
      subst h
      exact ⟨rfl, rfl, rfl, le_refl _, by omega⟩

/-- Without `int` overflow `idset_grow` returns. -/
theorem idset_grow_total (s : idset) (slots : Int) (hv : valid s.T)
    (hM : s.T.M < 2147483648) (hs : slots < 1073741824) :
    ∃ s1, idset_grow s slots = .ok s1 := by
  obtain ⟨k, hk1, hk2, hk3⟩ := grow_loop_spec slots hs 63 s.T.M hv.1 hM (by
    have : (1 : Int) * 2 ^ 63 ≤ s.T.M * 2 ^ 63 :=
      mul_le_mul_of_nonneg_right hv.1 (by positivity)
    norm_num at this ⊢
    omega)
  unfold idset_grow
  simp only [hk1]
  have hge : s.T.M ≤ s.T.M * 2 ^ k := by
    have : s.T.M * 1 ≤ s.T.M * 2 ^ k :=
      mul_le_mul_of_nonneg_left (one_le_pow₀ (by norm_num)) (by have := hv.1; omega)
    simpa using this
  by_cases hn : s.T.M * 2 ^ k > s.T.M
  · rw [if_pos hn, grow_copy_all s.T hv _ hge]
    exact ⟨_, rfl⟩
  · rw [if_neg hn]
    exact ⟨_, rfl⟩

/-- The doubling loop from a power of two of at most `2^30`, without
overflow: the result is the larger of the old capacity and the least power of
two above `slots`. -/
theorem grow_loop_pow2 (e : Nat) (he : e ≤ 30) (slots : Int) (hs : slots < 1073741824) :
    grow_loop 64 (2 ^ e) slots = some (max (2 ^ e) (round_pow2 (slots + 1))) := by
  have hM := two_pow_le_30 e he
  obtain ⟨k, hk1, hk2, hk3⟩ := grow_loop_spec slots hs 63 (2 ^ e) (two_pow_pos e)
    (by omega) (by
      have : (1 : Int) * 2 ^ 63 ≤ 2 ^ e * 2 ^ 63 :=
        mul_le_mul_of_nonneg_right (two_pow_pos e) (by positivity)
      norm_num at this ⊢
      omega)
  rw [hk1]
  congr 1
  obtain ⟨x, hx1, hx2, hx3⟩ := round_pow2_spec (slots + 1)
  rw [hx1]
  rcases Nat.eq_zero_or_pos k with h0 | h0
  · subst h0
    simp only [pow_zero, mul_one] at hk2 ⊢
    have hxe : x ≤ e := by
      rcases hx3 with rfl | hx3
      · omega
      · have : (2 : Int) ^ (x - 1) < 2 ^ e := by omega
        have := (two_pow_lt (x - 1) e).1 this
        omega
    exact (max_eq_left ((two_pow_le x e).2 hxe)).symm
  · obtain ⟨j, rfl⟩ : ∃ j, k = j + 1 := ⟨k - 1, by omega⟩
    have hk4 : (2 : Int) ^ e * 2 ^ j ≤ slots := by
      rcases hk3 with h | h
      · omega
      · simpa using h
    have e1 : (2 : Int) ^ e * 2 ^ (j + 1) = 2 ^ (e + j + 1) := by
      rw [← pow_add, add_assoc]
    have e2 : (2 : Int) ^ e * 2 ^ j = 2 ^ (e + j) := by
      rw [← pow_add]
    rw [e1] at hk2 ⊢
    rw [e2] at hk4
    have hl : least_exp (slots + 1) (e + j + 1) := by
      refine ⟨by omega, Or.inr ?_⟩
      simp only [Nat.add_sub_cancel]
      omega
    have hxk := least_exp_unique _ x (e + j + 1) ⟨hx2, hx3⟩ hl
    subst hxk
    exact (max_eq_right ((two_pow_le e (e + j + 1)).2 (by omega))).symm

theorem grow_loop_zero (slots : Int) (hs : 0 ≤ slots) :
    ∀ fuel : Nat, grow_loop fuel 0 slots = none := by
  intro fuel
  induction fuel with
  | zero => rfl
  | succ f ih =>
    rw [grow_loop, if_pos hs]
    have : wrap32 (0 * 2) = 0 := by decide
    rw [this]
    exact ih

/-- With `slots` of `2^30` or more the doubling loop from a power of two
never exits: the doubling reaches `2^31`, wraps to `INT_MIN` and then to 0. -/
theorem grow_loop_none (slots : Int) (hs : 1073741824 ≤ slots) :
    ∀ (fuel e : Nat), e ≤ 30 → grow_loop fuel (2 ^ e) slots = none := by
  intro fuel
  induction fuel with
  | zero => intro e _; rfl
  | succ f ih =>
    intro e he
    have hM := two_pow_le_30 e he
    have h1 := two_pow_pos e
    rw [grow_loop, if_pos (by omega)]
    rcases Nat.lt_or_ge e 30 with h | h
    · have hM2 := two_pow_le_30 (e + 1) (by omega)
      rw [pow_succ] at hM2
      rw [wrap32_id _ (by omega) (by omega), ← pow_succ]
      exact ih (e + 1) (by omega)
    · have he30 : e = 30 := by omega
      subst he30
      have hw : wrap32 ((2 : Int) ^ 30 * 2) = -2147483648 := by decide
      rw [hw]
      cases f with
      | zero => rfl
      | succ g =>
        rw [grow_loop, if_pos (by omega)]
        have hw2 : wrap32 (-2147483648 * 2) = 0 := by decide
        rw [hw2]
        exact grow_loop_zero slots (by omega) g

/-- Growth of a set whose capacity is a power of two of at most `2^30`. -/
theorem idset_grow_pow2 (s : idset) (slots : Int) (hg : pgood s) :
    idset_grow s slots =
      if slots < 1073741824 then
        .ok { s with T := { M := max s.T.M (round_pow2 (slots + 1)), D := s.T.D } }
      else .loops := by
  obtain ⟨hv, e, he, hM⟩ := hg
  unfold idset_grow
  by_cases hs : slots < 1073741824
  · rw [if_pos hs, hM, grow_loop_pow2 e he slots hs]
    simp only
    obtain ⟨y, hy, hey, hmax, _⟩ := grow_cap e he slots hs
    by_cases hn : max ((2 : Int) ^ e) (round_pow2 (slots + 1)) > 2 ^ e
    · rw [if_pos hn]
      have := grow_copy_all s.T hv (max ((2 : Int) ^ e) (round_pow2 (slots + 1)))
        (by rw [hM]; exact le_max_left _ _)
      rw [hM] at this
      rw [this, hmax, round_pow2_id]
    · rw [if_neg hn]
      have h2 : max ((2 : Int) ^ e) (round_pow2 (slots + 1)) = 2 ^ e :=
        le_antisymm (not_lt.1 hn) (le_max_left _ _)
      rw [h2, ← hM]
  · rw [if_neg hs, hM, grow_loop_none slots (by omega) 64 e he]

/-! ## `idset_set` -/

theorem pgood_good (s : idset) (h : pgood s) : good s := by
  obtain ⟨hv, e, he, hM⟩ := h
  have := two_pow_le_30 e he
  exact ⟨hv, by omega⟩

/-- Insertion into a set whose capacity is a power of two of at most `2^30`:
the call returns exactly when `id + 1`, as an `int`, is below `2^30`. -/
theorem idset_set_pow2 (s : idset) (id : Int) (hg : pgood s) :
    idset_set s id =
      if wrap32 (id + 1) < 1073741824 then
        .ok { s with
          T := vebput { M := max s.T.M (round_pow2 (wrap32 (id + 1) + 1)), D := s.T.D } id }
      else .loops := by
  unfold idset_set
  rw [idset_grow_pow2 s _ hg]
  by_cases h : wrap32 (id + 1) < 1073741824
  · rw [if_pos h, if_pos h]
  · rw [if_neg h, if_neg h]

theorem pgood_grown (s : idset) (slots : Int) (hg : pgood s) (hs : slots < 1073741824)
    (x : Int) :
    pgood { s with T := vebput { M := max s.T.M (round_pow2 (slots + 1)), D := s.T.D } x } := by
  obtain ⟨hv, e, he, hM⟩ := hg
  obtain ⟨y, hy, hey, hmax, _⟩ := grow_cap e he slots hs
  rw [hM, hmax]
  have hle := (two_pow_le e y).2 hey
  refine ⟨vebput_valid _ _ ⟨two_pow_pos y, hv.2.1, fun z hz => ?_⟩, y, hy, ?_⟩
  · have := hv.2.2 z hz
    simp only
    omega
  · simp only
    rw [vebput_M]

/-- Without overflow an insertion returns: the capacity does not shrink and
exceeds `id + 1`, and a non-negative `id` is added to the members. -/
theorem idset_set_good (s : idset) (id : Int) (hg : pgood s)
    (h1 : -2147483648 ≤ id) (h2 : id < 1073741823) :
    ∃ s1, idset_set s id = .ok s1 ∧ pgood s1 ∧ s1.flags = s.flags ∧ s1.magic = s.magic
      ∧ s.T.M ≤ s1.T.M ∧ (0 ≤ id → id + 1 < s1.T.M)
      ∧ ∀ z, z ∈ s1.T.D ↔ z ∈ s.T.D ∨ (z = id ∧ 0 ≤ id) := by
  have hw : wrap32 (id + 1) = id + 1 := wrap32_id _ (by omega) (by omega)
  have hp := pgood_grown s (id + 1) hg (by omega) id
  obtain ⟨hv, e, he, hM⟩ := hg
  obtain ⟨y, hy, hey, hmax, hlt⟩ := grow_cap e he (id + 1) (by omega)
  have hle := (two_pow_le e y).2 hey
  refine ⟨_, by rw [idset_set_pow2 s id ⟨hv, e, he, hM⟩, hw, if_pos (by omega)], hp, rfl, rfl,
    ?_, ?_, ?_⟩
  · simp only [vebput_M]
    exact le_max_left _ _
  · intro _
    simp only [vebput_M]
    rw [hM, hmax]
    exact hlt
  · intro z
    simp only
    by_cases h0 : 0 ≤ id
    · rw [vebput_D _ _ ⟨h0, by simp only; rw [hM, hmax]; omega⟩, mem_insert_id]
      simp only [h0, and_true]
      tauto
    · unfold vebput
      rw [if_neg (fun h => h0 h.1)]
      simp [h0]

/-- Without overflow an insertion of `id ≥ 0` into any valid set returns. -/
theorem idset_set_total (s : idset) (id : Int) (hg : good s) (h0 : 0 ≤ id)
    (h2 : id < 1073741823) :
    ∃ s1, idset_set s id = .ok s1 ∧ s1.flags = s.flags ∧ id + 1 < s1.T.M
      ∧ ∀ z, z ∈ s1.T.D ↔ z ∈ s.T.D ∨ z = id := by
  have hw : wrap32 (id + 1) = id + 1 := wrap32_id _ (by omega) (by omega)
  obtain ⟨s2, h2g⟩ := idset_grow_total s (id + 1) hg.1 hg.2 (by omega)
  obtain ⟨hD, hf, _, _, hlt⟩ := idset_grow_returns s s2 (id + 1) hg.1 h2g
  refine ⟨{ s2 with T := vebput s2.T id }, ?_, hf, by simp only [vebput_M]; exact hlt, ?_⟩
  · unfold idset_set
    rw [hw, h2g]
  · intro z
    simp only
    rw [vebput_D _ _ ⟨h0, by omega⟩, mem_insert_id, hD]
    tauto

/-- Whenever an insertion of an `id` in `[0, INT_MAX)` returns, the members
are the old ones and `id`. -/
theorem idset_set_returns (s s1 : idset) (id : Int) (hv : valid s.T)
    (h0 : 0 ≤ id) (h2 : id < 2147483647) (h : idset_set s id = .ok s1) :
    ∀ z, z ∈ s1.T.D ↔ z ∈ s.T.D ∨ z = id := by
  have hw : wrap32 (id + 1) = id + 1 := wrap32_id _ (by omega) (by omega)
  unfold idset_set at h
  rw [hw] at h
  cases hgr : idset_grow s (id + 1) with
  | ok s2 =>
    obtain ⟨hD, _, _, _, hlt⟩ := idset_grow_returns s s2 (id + 1) hv hgr
    simp only [hgr, Outcome.ok.injEq] at h
    subst h
    intro z
    simp only
    rw [vebput_D _ _ ⟨h0, by omega⟩, mem_insert_id, hD]
    tauto
  | fail e => simp [hgr] at h
  | loops => simp [hgr] at h

theorem idset_grow_no_fail (s : idset) (slots : Int) (e : Errno) :
    idset_grow s slots ≠ .fail e := by
  unfold idset_grow
  cases grow_loop 64 s.T.M slots with
  | none => simp
  | some n =>
    simp only
    by_cases hn : n > s.T.M
    · rw [if_pos hn]
      cases grow_copy s.T (s.T.M.toNat + 1) (vebsucc s.T 0) (vebnew n) <;> simp
    · rw [if_neg hn]
      simp

/-- No path of `idset_set` returns a failure. -/
theorem idset_set_no_fail (s : idset) (id : Int) (e : Errno) : idset_set s id ≠ .fail e := by
  unfold idset_set
  cases h : idset_grow s (wrap32 (id + 1)) with
  | ok s1 => simp
  | fail e1 => exact absurd h (idset_grow_no_fail _ _ _)
  | loops => simp

/-! ## Growth and insertion claims -/

/-- C6 (the code departs from the claim): evaluation of `idset_set` on a set
of capacity 1024.  Inserting 1023, which is below the capacity, doubles the
capacity to 2048, also through `idset_decode`; inserting 2047 gives 4096
although 2048 is the smallest power of two above 2047; inserting 1022 leaves
the capacity and inserting 2000 gives 2048. -/
theorem capacity_after_insert_eval :
    idset_create 1024 IDSET_FLAG_AUTOGROW = .ok ⟨IDSET_MAGIC, ⟨1024, []⟩, 1⟩
      ∧ idset_decode (some "1023".toList) = .ok ⟨IDSET_MAGIC, ⟨2048, [1023]⟩, 1⟩
      ∧ idset_set ⟨IDSET_MAGIC, ⟨1024, []⟩, 1⟩ 1023 = .ok ⟨IDSET_MAGIC, ⟨2048, [1023]⟩, 1⟩
      ∧ idset_set ⟨IDSET_MAGIC, ⟨1024, []⟩, 1⟩ 2047 = .ok ⟨IDSET_MAGIC, ⟨4096, [2047]⟩, 1⟩
      ∧ idset_set ⟨IDSET_MAGIC, ⟨1024, []⟩, 1⟩ 1022 = .ok ⟨IDSET_MAGIC, ⟨1024, [1022]⟩, 1⟩
      ∧ idset_set ⟨IDSET_MAGIC, ⟨1024, []⟩, 1⟩ 2000 = .ok ⟨IDSET_MAGIC, ⟨2048, [2000]⟩, 1⟩ := by
  decide

/-- C7: growth preserves membership.  For every valid set, whenever
`idset_grow` returns the members are exactly the members before, and it does
return when the capacity fits an `int` and the target is below `2^30`;
whenever `idset_set (s, id)` returns for an `id` in `[0, INT_MAX)` the members
are the old members and `id`, and it does return for `id < 2^30 - 1`. -/
theorem growth_preserves_membership (s : idset) (hv : valid s.T) :
    (∀ target s1, idset_grow s target = .ok s1 → ∀ x, x ∈ s1.T.D ↔ x ∈ s.T.D)
      ∧ (∀ target, s.T.M < 2147483648 → target < 1073741824 →
          ∃ s1, idset_grow s target = .ok s1)
      ∧ (∀ id s1, 0 ≤ id → id < 2147483647 → idset_set s id = .ok s1 →
          ∀ x, x ∈ s1.T.D ↔ x ∈ s.T.D ∨ x = id)
      ∧ (∀ id, s.T.M < 2147483648 → 0 ≤ id → id < 1073741823 →
          ∃ s1, idset_set s id = .ok s1) := by
  refine ⟨?_, ?_, ?_, ?_⟩
  · intro target s1 h x
    rw [(idset_grow_returns s s1 target hv h).1]
  · intro target hM ht
    exact idset_grow_total s target hv hM ht
  · intro id s1 h0 h2 h
    exact idset_set_returns s s1 id hv h0 h2 h
  · intro id hM h0 h2
    obtain ⟨s1, h1, _⟩ := idset_set_total s id ⟨hv, hM⟩ h0 h2
    exact ⟨s1, h1⟩

/-- Witness for C7: inserting 9 into `{1,3}` of capacity 4 returns. -/
theorem growth_preserves_membership_witness :
    valid ⟨4, [1, 3]⟩ ∧ ∃ s1, idset_set ⟨IDSET_MAGIC, ⟨4, [1, 3]⟩, 1⟩ 9 = .ok s1 :=
  ⟨by decide, (growth_preserves_membership ⟨IDSET_MAGIC, ⟨4, [1, 3]⟩, 1⟩ (by decide)).2.2.2 9
    (by decide) (by decide) (by decide)⟩

/-- C8, as stated, fails: a set created without `IDSET_FLAG_AUTOGROW` and of
capacity 4 accepts the id 5; the insertion returns success, with capacity 8
and member 5, not an `EINVAL` failure. -/
theorem insert_without_autogrow_counterexample :
    idset_create 4 0 = .ok ⟨IDSET_MAGIC, ⟨4, []⟩, 0⟩
      ∧ idset_set ⟨IDSET_MAGIC, ⟨4, []⟩, 0⟩ 5 = .ok ⟨IDSET_MAGIC, ⟨8, [5]⟩, 0⟩
      ∧ idset_set ⟨IDSET_MAGIC, ⟨4, []⟩, 0⟩ 5 ≠ .fail .EINVAL := by
  decide

/-- C8 amended: `idset_set` never consults the autogrow flag.  For every valid
set, whatever its flags, and every `id ≥ capacity` below `2^30 - 1`, the
insertion returns success: the flags are kept, the capacity exceeds `id`, and
the members are the old members and `id`; no failure return exists. -/
theorem insert_ignores_autogrow (s : idset) (id : Int) (hg : good s)
    (hid : s.T.M ≤ id) (h2 : id < 1073741823) :
    (∀ e, idset_set s id ≠ .fail e)
      ∧ ∃ s1, idset_set s id = .ok s1 ∧ s1.flags = s.flags ∧ id < s1.T.M
          ∧ ∀ z, z ∈ s1.T.D ↔ z ∈ s.T.D ∨ z = id := by
  have h0 : 0 ≤ id := by have := hg.1.1; omega
  refine ⟨fun e => idset_set_no_fail s id e, ?_⟩
  obtain ⟨s1, h1, hf, hlt, hmem⟩ := idset_set_total s id hg h0 h2
  exact ⟨s1, h1, hf, by omega, hmem⟩

/-- Witness for C8 amended: capacity 4, no autogrow flag, id 5. -/
theorem insert_ignores_autogrow_witness :
    (∀ e, idset_set ⟨IDSET_MAGIC, ⟨4, []⟩, 0⟩ 5 ≠ .fail e)
      ∧ ∃ s1, idset_set ⟨IDSET_MAGIC, ⟨4, []⟩, 0⟩ 5 = .ok s1 ∧ s1.flags = 0 ∧ 5 < s1.T.M
          ∧ ∀ z, z ∈ s1.T.D ↔ z ∈ ([] : List Int) ∨ z = 5 :=
  insert_ignores_autogrow ⟨IDSET_MAGIC, ⟨4, []⟩, 0⟩ 5 (by decide) (by decide) (by decide)

/-! ## The insertion loop of `idset_decode` -/

theorem decode_for_skip (fuel : Nat) (s : idset) (hi lo : Int) (h : hi < lo) :
    decode_for (fuel + 1) s hi lo = .ok s := by
  rw [decode_for, if_neg (by omega)]

theorem decode_for_spec : ∀ (n : Nat) (fuel : Nat) (s : idset) (hi lo : Int),
    pgood s → hi - lo + 1 = (n : Int) → -2147483648 < lo → hi < 1073741823 → n < fuel →
    ∃ s1, decode_for fuel s hi lo = .ok s1 ∧ pgood s1 ∧ s1.flags = s.flags
      ∧ s1.magic = s.magic ∧ s.T.M ≤ s1.T.M
      ∧ ∀ z, z ∈ s1.T.D ↔ z ∈ s.T.D ∨ (lo ≤ z ∧ z ≤ hi ∧ 0 ≤ z) := by
  intro n
  induction n with
  | zero =>
    intro fuel s hi lo hg hn hlo hhi hf
    obtain ⟨f, rfl⟩ : ∃ f, fuel = f + 1 := ⟨fuel - 1, by omega⟩
    refine ⟨s, decode_for_skip f s hi lo (by simp at hn; omega), hg, rfl, rfl, le_refl _, ?_⟩
    intro z
    simp only [Nat.cast_zero] at hn
    constructor
    · exact Or.inl
    · rintro (h | h)
      · exact h
      · omega
  | succ n ih =>
    intro fuel s hi lo hg hn hlo hhi hf
    obtain ⟨f, rfl⟩ : ∃ f, fuel = f + 1 := ⟨fuel - 1, by omega⟩
    push_cast at hn
    obtain ⟨s1, h1, hg1, hf1, hm1, hM1, _, hmem1⟩ :=
      idset_set_good s hi hg (by omega) hhi
    have hw : wrap32 (hi - 1) = hi - 1 := wrap32_id _ (by omega) (by omega)
    obtain ⟨s2, h2, hg2, hf2, hm2, hM2, hmem2⟩ :=
      ih f s1 (hi - 1) lo hg1 (by omega) hlo (by omega) (by omega)
    refine ⟨s2, ?_, hg2, by rw [hf2, hf1], by rw [hm2, hm1], le_trans hM1 hM2, ?_⟩
    · rw [decode_for, if_pos (by omega), h1]
      simp only
      rw [hw, h2]
    · intro z
      rw [hmem2 z, hmem1 z]
      constructor
      · rintro ((h | ⟨rfl, h⟩) | h)
        · exact Or.inl h
        · exact Or.inr ⟨by omega, le_refl _, h⟩
        · exact Or.inr ⟨h.1, by omega, h.2.2⟩
      · rintro (h | ⟨ha, hb, hc⟩)
        · exact Or.inl (Or.inl h)
        · by_cases hz : z = hi
          · exact Or.inl (Or.inr ⟨hz, by omega⟩)
          · exact Or.inr ⟨ha, by omega, hc⟩

/-- A range whose bounds cause no overflow: the loop returns and adds the
non-negative ids of `[lo, hi]`. -/
theorem decode_for_safe (s : idset) (hi lo : Int) (hg : pgood s)
    (hlo : -2147483648 < lo) (hhi : hi < 1073741823) :
    ∃ s1, decode_for 4294967297 s hi lo = .ok s1 ∧ pgood s1 ∧ s1.flags = s.flags
      ∧ s1.magic = s.magic ∧ s.T.M ≤ s1.T.M
      ∧ ∀ z, z ∈ s1.T.D ↔ z ∈ s.T.D ∨ (lo ≤ z ∧ z ≤ hi ∧ 0 ≤ z) := by
  by_cases h : hi < lo
  · refine ⟨s, decode_for_skip _ s hi lo h, hg, rfl, rfl, le_refl _, fun z => ?_⟩
    constructor
    · exact Or.inl
    · rintro (h1 | h1)
      · exact h1
      · omega
  · exact decode_for_spec (hi - lo + 1).toNat _ s hi lo hg (by omega) hlo hhi (by omega)

/-! ## Tokens -/

theorem split_commas_ne_nil (p : List Char) : split_commas p ≠ [] := by
  cases p with
  | nil => simp [split_commas]
  | cons c cs =>
    unfold split_commas
    split
    · simp
    · split <;> simp

theorem split_commas_eq (p : List Char) :
    split_commas p = p.takeWhile (fun c => c ≠ ',') ::
      (match p.dropWhile (fun c => c ≠ ',') with
        | [] => []
        | _ :: r => split_commas r) := by
  induction p with
  | nil => simp [split_commas]
  | cons c cs ih =>
    by_cases h : c = ','
    · subst h
      simp [split_commas]
    · rw [split_commas, if_neg h, ih]
      simp [h]

theorem tokens_comma (cs : List Char) : tokens (',' :: cs) = tokens cs := by
  simp [tokens, split_commas]

theorem tokens_dropWhile (p : List Char) :
    tokens (p.dropWhile (fun c => c = ',')) = tokens p := by
  induction p with
  | nil => rfl
  | cons c cs ih =>
    by_cases h : c = ','
    · subst h
      rw [tokens_comma]
      simpa using ih
    · simp [h]

theorem tokens_nil : tokens [] = [] := by
  simp [tokens, split_commas]

theorem tokens_cons (p : List Char) (hp : p ≠ []) (hc : p.head? ≠ some ',') :
    tokens p = p.takeWhile (fun c => c ≠ ',')
      :: tokens ((p.dropWhile (fun c => c ≠ ',')).drop 1) := by
  cases p with
  | nil => exact absurd rfl hp
  | cons a as =>
    have ha : a ≠ ',' := by simpa using hc
    rw [tokens, split_commas_eq]
    have hne : List.takeWhile (fun c => decide (c ≠ ',')) (a :: as) ≠ [] := by
      simp [List.takeWhile, ha]
    rw [List.filter_cons_of_pos (by simpa using hne)]
    congr 1
    cases hd : List.dropWhile (fun c => decide (c ≠ ',')) (a :: as) with
    | nil => simp [tokens_nil]
    | cons d r => simp [tokens]

theorem strtok_r_none (p : List Char) (h : strtok_r p = none) : tokens p = [] := by
  unfold strtok_r at h
  simp only at h
  split at h
  · rename_i h1
    rw [← tokens_dropWhile, h1, tokens_nil]
  · simp at h

theorem dropWhile_head (p : List Char) (f : Char → Bool) :
    ∀ c, (p.dropWhile f).head? = some c → f c = false := by
  induction p with
  | nil => simp
  | cons a as ih =>
    intro c hc
    by_cases ha : f a = true
    · rw [List.dropWhile_cons_of_pos ha] at hc
      exact ih c hc
    · rw [List.dropWhile_cons_of_neg ha] at hc
      simp only [List.head?_cons, Option.some.injEq] at hc
      subst hc
      simpa using ha

theorem strtok_r_some (p tok rest : List Char) (h : strtok_r p = some (tok, rest)) :
    tokens p = tok :: tokens rest ∧ rest.length < p.length := by
  unfold strtok_r at h
  simp only at h
  split at h
  · simp at h
  · rename_i h1
    simp only [Option.some.injEq, Prod.mk.injEq] at h
    obtain ⟨rfl, rfl⟩ := h
    have hhead : (p.dropWhile (fun c => decide (c = ','))).head? ≠ some ',' := by
      intro hc
      have := dropWhile_head p _ ',' hc
      simp at this
    constructor
    · rw [← tokens_dropWhile p]
      exact tokens_cons _ h1 hhead
    · have l1 : (List.dropWhile (fun c => decide (c = ',')) p).length ≤ p.length :=
        (List.dropWhile_sublist _).length_le
      have l2 : ∀ q : List Char, q ≠ [] → q.head? ≠ some ',' →
          ((q.dropWhile (fun c => decide (c ≠ ','))).drop 1).length < q.length := by
        intro q hq hqh
        cases q with
        | nil => exact absurd rfl hq
        | cons a as =>
          have ha : a ≠ ',' := by simpa using hqh
          have l3 : ∀ g : Char → Bool, (List.dropWhile g as).length ≤ as.length :=
            fun g => (List.dropWhile_sublist g).length_le
          simp only [ne_eq, ha, not_false_eq_true, decide_True, List.dropWhile_cons_of_pos,
            List.length_drop, List.length_cons]
          have := l3 (fun c => decide ¬c = ',')
          omega
      have := l2 _ h1 hhead
      omega

theorem decode_loop_eq : ∀ (fuel : Nat) (s : idset) (p : List Char), p.length < fuel →
    decode_loop fuel s p = decode_tokens s (tokens p) := by
  intro fuel
  induction fuel with
  | zero => intro s p h; omega
  | succ f ih =>
    intro s p h
    rw [decode_loop]
    cases ht : strtok_r p with
    | none => simp [strtok_r_none p ht, decode_tokens]
    | some r =>
      obtain ⟨tok, rest⟩ := r
      obtain ⟨h1, h2⟩ := strtok_r_some p tok rest ht
      rw [h1, decode_tokens]
      simp only
      cases parse_range tok with
      | none => rfl
      | some hl =>
        obtain ⟨hi, lo⟩ := hl
        simp only
        cases decode_for 4294967297 s hi lo with
        | ok s1 => exact ih s1 rest (by omega)
        | fail e => rfl
        | loops => rfl

/-! ## `strtoul` and `parse_range` -/

theorem isdigit_not_space (c : Char) (h : isdigit c = true) : isspace c = false := by
  unfold isdigit at h
  unfold isspace
  simp only [decide_eq_true_eq] at h
  simp only [Bool.decide_or, Bool.or_eq_false_iff, decide_eq_false_iff_not, not_and, not_le]
  constructor
  · rintro rfl
    revert h
    decide
  · omega

theorem isdigit_not_sign (c : Char) (h : isdigit c = true) : c ≠ '-' ∧ c ≠ '+' := by
  constructor <;> rintro rfl <;> revert h <;> decide

theorem strtoul_sign_other (c : Char) (t : List Char) (h1 : c ≠ '-') (h2 : c ≠ '+') :
    strtoul_sign (c :: t) = (false, c :: t) := by
  unfold strtoul_sign
  split
  · rename_i t2 heq
    simp only [List.cons.injEq] at heq
    exact absurd heq.1 h1
  · rename_i t2 heq
    simp only [List.cons.injEq] at heq
    exact absurd heq.1 h2
  · rfl

theorem takeWhile_stop (f : Char → Bool) (ds rest : List Char) (hd : ∀ c ∈ ds, f c = true)
    (hr : ∀ c, rest.head? = some c → f c = false) :
    (ds ++ rest).takeWhile f = ds ∧ (ds ++ rest).dropWhile f = rest := by
  induction ds with
  | nil =>
    cases rest with
    | nil => simp
    | cons r rs =>
      have := hr r rfl
      simp [this]
  | cons d ds ih =>
    have h1 := hd d (List.mem_cons_self _ _)
    have h2 := ih (fun c hc => hd c (List.mem_cons_of_mem _ hc))
    simp [h1, h2.1, h2.2]

theorem strtoul_number (ds rest : List Char) (hd : is_number ds)
    (hr : ∀ c, rest.head? = some c → isdigit c = false)
    (hv : digits_value ds ≤ ULONG_MAX) :
    strtoul (ds ++ rest) = (digits_value ds, rest) := by
  obtain ⟨hne, hall⟩ := hd
  cases ds with
  | nil => exact absurd rfl hne
  | cons d ds =>
    have hdd := hall d (List.mem_cons_self _ _)
    have hsp := isdigit_not_space d hdd
    have hsg := isdigit_not_sign d hdd
    have htd := takeWhile_stop isdigit (d :: ds) rest hall hr
    have h1 : List.dropWhile isspace (d :: ds ++ rest) = d :: ds ++ rest := by
      simp [hsp]
    unfold strtoul
    simp only [List.cons_append] at htd h1 ⊢
    simp only [h1, strtoul_sign_other d (ds ++ rest) hsg.1 hsg.2, htd.1, htd.2]
    rw [if_neg (by simp), if_neg (by omega)]
    simp

theorem parse_range_one (a : List Char) (ha : is_number a) (hv : digits_value a < 2147483648) :
    parse_range a = some ((digits_value a : Int), (digits_value a : Int)) := by
  have h := strtoul_number a [] ha (by simp) (by unfold ULONG_MAX; omega)
  rw [List.append_nil] at h
  have hlen : a.length ≠ 0 := by
    have := ha.1
    simpa using this
  unfold parse_range
  simp only [h]
  rw [if_neg (by simp; omega), if_neg (by simp), wrap32_id _ (by omega) (by omega)]

theorem parse_range_two (a b : List Char) (ha : is_number a) (hb : is_number b)
    (hva : digits_value a < 2147483648) (hvb : digits_value b < 2147483648) :
    parse_range (a ++ '-' :: b) = some ((digits_value b : Int), (digits_value a : Int)) := by
  have h1 := strtoul_number a ('-' :: b) ha (by simp; decide) (by unfold ULONG_MAX; omega)
  have h2 := strtoul_number b [] hb (by simp) (by unfold ULONG_MAX; omega)
  rw [List.append_nil] at h2
  have hla : a.length ≠ 0 := by
    have := ha.1
    simpa using this
  have hlb : b.length ≠ 0 := by
    have := hb.1
    simpa using this
  have hc1 : ¬ (('-' :: b).length = (a ++ '-' :: b).length
      ∨ (('-' :: b) ≠ [] ∧ ('-' :: b).head? ≠ some '-')) := by
    simp only [List.length_append, List.length_cons, List.head?_cons, ne_eq,
      not_true_eq_false, and_false, or_false]
    omega
  have hc2 : ¬ (([] : List Char).length = b.length ∨ ([] : List Char) ≠ []) := by
    simp only [List.length_nil, ne_eq, not_true_eq_false, or_false]
    omega
  unfold parse_range
  simp only [h1]
  rw [if_neg hc1, if_pos (by simp)]
  simp only [List.tail_cons, h2]
  rw [if_neg hc2, wrap32_id _ (by omega) (by omega), wrap32_id _ (by omega) (by omega)]

theorem parse_range_tok (t : Tok) (ht : t.wf) : parse_range t.text = some (t.hi, t.lo) := by
  cases t with
  | one a =>
    obtain ⟨ha, hv⟩ := ht
    exact parse_range_one a ha (by omega)
  | two a b =>
    obtain ⟨ha, hb, hva, hvb⟩ := ht
    exact parse_range_two a b ha hb (by omega) (by omega)

/-- When `strtoul` moves `endptr`, the text it has read is a number. -/
theorem strtoul_shape (s : List Char) (h : (strtoul s).2.length ≠ s.length) :
    ∃ a, s = a ++ (strtoul s).2 ∧ number_like a := by
  have hsplit : s = s.takeWhile isspace ++ s.dropWhile isspace :=
    (List.takeWhile_append_dropWhile _ _).symm
  have hws : ∀ c ∈ s.takeWhile isspace, isspace c = true := fun c hc =>
    List.mem_takeWhile_imp hc
  have key : ∀ (sg : List Char) (neg : Bool) (t : List Char),
      s.dropWhile isspace = sg ++ t → (sg = [] ∨ sg = ['+'] ∨ sg = ['-']) →
      (strtoul s = if t.takeWhile isdigit = [] then (0, s) else
        (if digits_value (t.takeWhile isdigit) > ULONG_MAX then (ULONG_MAX, t.dropWhile isdigit)
          else if neg then
            ((ULONG_MAX + 1 - digits_value (t.takeWhile isdigit)) % (ULONG_MAX + 1),
              t.dropWhile isdigit)
          else (digits_value (t.takeWhile isdigit), t.dropWhile isdigit))) →
      ∃ a, s = a ++ (strtoul s).2 ∧ number_like a := by
    intro sg neg t h1 h2 h3
    by_cases hds : t.takeWhile isdigit = []
    · rw [h3, if_pos hds] at h
      exact absurd rfl h
    · have hr : (strtoul s).2 = t.dropWhile isdigit := by
        rw [h3, if_neg hds]
        split
        · rfl
        · split <;> rfl
      refine ⟨s.takeWhile isspace ++ sg ++ t.takeWhile isdigit, ?_,
        ⟨_, _, _, rfl, hws, h2, hds, fun c hc => List.mem_takeWhile_imp hc⟩⟩
      rw [hr, List.append_assoc, List.append_assoc, List.takeWhile_append_dropWhile, ← h1]
      exact hsplit
  cases hs1 : s.dropWhile isspace with
  | nil =>
    refine key [] false [] (by simp [hs1]) (Or.inl rfl) ?_
    simp [strtoul, strtoul_sign, hs1]
  | cons c t =>
    by_cases hm : c = '-'
    · subst hm
      refine key ['-'] true t (by simp [hs1]) (Or.inr (Or.inr rfl)) ?_
      simp [strtoul, strtoul_sign, hs1]
    · by_cases hp : c = '+'
      · subst hp
        refine key ['+'] false t (by simp [hs1]) (Or.inr (Or.inl rfl)) ?_
        simp [strtoul, strtoul_sign, hs1]
      · refine key [] false (c :: t) (by simp [hs1]) (Or.inl rfl) ?_
        unfold strtoul
        simp only [hs1, strtoul_sign_other c t hm hp]

/-- Every token that `parse_range` accepts is a number or two numbers joined
by `-`, in the syntax of `strtoul`. -/
theorem parse_range_shape (t : List Char) (x : Int × Int) (h : parse_range t = some x) :
    token_ok t := by
  unfold parse_range at h
  simp only at h
  split at h
  · simp at h
  · rename_i h1
    rw [not_or] at h1
    obtain ⟨a, ha1, ha2⟩ := strtoul_shape t h1.1
    split at h
    · rename_i h2
      split at h
      · simp at h
      · rename_i h3
        rw [not_or] at h3
        obtain ⟨b, hb1, hb2⟩ := strtoul_shape _ h3.1
        have h4 : (strtoul (strtoul t).2.tail).2 = [] := by simpa using h3.2
        rw [h4, List.append_nil] at hb1
        right
        refine ⟨a, b, ?_, ha2, hb2⟩
        cases hr : (strtoul t).2 with
        | nil => simp [hr] at h2
        | cons c r =>
          rw [hr] at h2 hb1
          simp only [List.head?_cons, Option.some.injEq] at h2
          simp only [List.tail_cons] at hb1
          rw [ha1, hr, h2, ← hb1]
    · rename_i h2
      left
      have : (strtoul t).2 = [] := by
        by_contra hne
        exact h2 (by
          have := h1.2
          rw [not_and, not_not] at this
          exact this hne)
      rw [this, List.append_nil] at ha1
      rw [ha1]
      exact ha2

/-! ## `idset_decode` over the token list -/

theorem idset_decode_eq (str : List Char) :
    idset_decode (some str) = decode_tokens decode_start (tokens (trim_brackets (strdup str))) := by
  unfold idset_decode
  have h : idset_create 1024 IDSET_FLAG_AUTOGROW = .ok decode_start := by decide
  simp only [h]
  exact decode_loop_eq _ _ _ (Nat.lt_succ_self _)

theorem decode_start_good : pgood decode_start :=
  ⟨by decide, 10, by decide, by decide⟩

theorem decode_tokens_ok (toks : List (List Char)) : ∀ (s : idset), pgood s →
    (∀ t ∈ toks, ∃ hi lo, parse_range t = some (hi, lo) ∧ -2147483648 < lo
      ∧ hi < 1073741823) →
    ∃ s1, decode_tokens s toks = .ok s1 ∧ pgood s1 ∧ s1.flags = s.flags
      ∧ s1.magic = s.magic ∧ s.T.M ≤ s1.T.M
      ∧ ∀ z, z ∈ s1.T.D ↔ z ∈ s.T.D
          ∨ ∃ t ∈ toks, ∃ hi lo, parse_range t = some (hi, lo) ∧ lo ≤ z ∧ z ≤ hi ∧ 0 ≤ z := by
  induction toks with
  | nil =>
    intro s hg _
    exact ⟨s, rfl, hg, rfl, rfl, le_refl _, by simp⟩
  | cons t toks ih =>
    intro s hg h
    obtain ⟨hi, lo, hp, hlo, hhi⟩ := h t (List.mem_cons_self _ _)
    obtain ⟨s1, h1, hg1, hf1, hm1, hM1, hmem1⟩ := decode_for_safe s hi lo hg hlo hhi
    obtain ⟨s2, h2, hg2, hf2, hm2, hM2, hmem2⟩ :=
      ih s1 hg1 (fun u hu => h u (List.mem_cons_of_mem _ hu))
    refine ⟨s2, ?_, hg2, by rw [hf2, hf1], by rw [hm2, hm1], le_trans hM1 hM2, ?_⟩
    · rw [decode_tokens, hp]
      simp only [h1]
      exact h2
    · intro z
      rw [hmem2 z, hmem1 z]
      constructor
      · rintro ((h3 | h3) | ⟨u, hu, h3⟩)
        · exact Or.inl h3
        · exact Or.inr ⟨t, List.mem_cons_self _ _, hi, lo, hp, h3⟩
        · exact Or.inr ⟨u, List.mem_cons_of_mem _ hu, h3⟩
      · rintro (h3 | ⟨u, hu, hi2, lo2, hp2, h3⟩)
        · exact Or.inl (Or.inl h3)
        · rcases List.mem_cons.1 hu with rfl | hu
          · rw [hp] at hp2
            simp only [Option.some.injEq, Prod.mk.injEq] at hp2
            obtain ⟨rfl, rfl⟩ := hp2
            exact Or.inl (Or.inr h3)
          · exact Or.inr ⟨u, hu, hi2, lo2, hp2, h3⟩

theorem decode_tokens_bad (toks : List (List Char)) : ∀ (s : idset), pgood s →
    (∀ t ∈ toks, ∀ hi lo, parse_range t = some (hi, lo) → -2147483648 < lo
      ∧ hi < 1073741823) →
    (∃ t ∈ toks, parse_range t = none) → decode_tokens s toks = .fail .EINVAL := by
  induction toks with
  | nil =>
    intro s _ _ h
    obtain ⟨t, ht, _⟩ := h
    simp at ht
  | cons t toks ih =>
    intro s hg hsafe hbad
    rw [decode_tokens]
    cases hp : parse_range t with
    | none => rfl
    | some x =>
      obtain ⟨hi, lo⟩ := x
      obtain ⟨hlo, hhi⟩ := hsafe t (List.mem_cons_self _ _) hi lo hp
      obtain ⟨s1, h1, hg1, _⟩ := decode_for_safe s hi lo hg hlo hhi
      simp only [h1]
      apply ih s1 hg1 (fun u hu => hsafe u (List.mem_cons_of_mem _ hu))
      obtain ⟨u, hu, hnone⟩ := hbad
      rcases List.mem_cons.1 hu with rfl | hu
      · rw [hp] at hnone
        simp at hnone
      · exact ⟨u, hu, hnone⟩

/-! ## Texts of tokens -/

theorem body_char_ne (c : Char) (h : body_char c) :
    c ≠ Char.ofNat 0 ∧ c ≠ '[' ∧ c ≠ ']' := by
  rcases h with h | rfl | rfl
  · refine ⟨?_, ?_, ?_⟩ <;> rintro rfl <;> revert h <;> decide
  · decide
  · decide

theorem isdigit_ne_comma (c : Char) (h : isdigit c = true) : c ≠ ',' := by
  rintro rfl
  revert h
  decide

theorem tok_text_chars (t : Tok) (ht : t.wf) :
    t.text ≠ [] ∧ (∀ c ∈ t.text, c ≠ ',') ∧ ∀ c ∈ t.text, body_char c := by
  cases t with
  | one a =>
    obtain ⟨⟨hne, hd⟩, _⟩ := ht
    exact ⟨hne, fun c hc => isdigit_ne_comma c (hd c hc), fun c hc => Or.inl (hd c hc)⟩
  | two a b =>
    obtain ⟨⟨hne, hda⟩, ⟨_, hdb⟩, _⟩ := ht
    refine ⟨by simp [Tok.text], ?_, ?_⟩
    · intro c hc
      simp only [Tok.text, List.mem_append, List.mem_cons] at hc
      rcases hc with hc | rfl | hc
      · exact isdigit_ne_comma c (hda c hc)
      · decide
      · exact isdigit_ne_comma c (hdb c hc)
    · intro c hc
      simp only [Tok.text, List.mem_append, List.mem_cons] at hc
      rcases hc with hc | rfl | hc
      · exact Or.inl (hda c hc)
      · exact Or.inr (Or.inl rfl)
      · exact Or.inl (hdb c hc)

theorem join_commas_chars (ts : List (List Char)) (h : ∀ t ∈ ts, ∀ c ∈ t, body_char c) :
    ∀ c ∈ join_commas ts, body_char c := by
  induction ts with
  | nil => simp [join_commas]
  | cons t ts ih =>
    cases ts with
    | nil => simpa [join_commas] using h
    | cons u ts =>
      intro c hc
      rw [join_commas_cons2, List.mem_append, List.mem_cons] at hc
      rcases hc with hc | rfl | hc
      · exact h t (List.mem_cons_self _ _) c hc
      · exact Or.inr (Or.inr rfl)
      · exact ih (fun v hv => h v (List.mem_cons_of_mem _ hv)) c hc

theorem tokens_single (t : List Char) (hne : t ≠ []) (hc : ∀ c ∈ t, c ≠ ',') :
    tokens t = [t] := by
  have hh : t.head? ≠ some ',' := by
    cases t with
    | nil => simp
    | cons a as => simpa using hc a (List.mem_cons_self _ _)
  have h := takeWhile_stop (fun c => decide (c ≠ ',')) t [] (by simpa using hc) (by simp)
  rw [List.append_nil] at h
  rw [tokens_cons t hne hh, h.1, h.2]
  simp [tokens_nil]

theorem tokens_join (ts : List (List Char)) (h : ∀ t ∈ ts, t ≠ [] ∧ ∀ c ∈ t, c ≠ ',') :
    tokens (join_commas ts) = ts := by
  induction ts with
  | nil => simp [join_commas, tokens_nil]
  | cons t ts ih =>
    obtain ⟨hne, hc⟩ := h t (List.mem_cons_self _ _)
    cases ts with
    | nil => exact tokens_single t hne hc
    | cons u ts =>
      have hh : (t ++ ',' :: join_commas (u :: ts)).head? ≠ some ',' := by
        cases t with
        | nil => exact absurd rfl hne
        | cons a as => simpa using hc a (List.mem_cons_self _ _)
      have h2 := takeWhile_stop (fun c => decide (c ≠ ',')) t (',' :: join_commas (u :: ts))
        (by simpa using hc) (by simp)
      rw [join_commas_cons2, tokens_cons _ (by simp) hh, h2.1, h2.2]
      simp only [List.drop_succ_cons, List.drop_zero]
      rw [ih (fun v hv => h v (List.mem_cons_of_mem _ hv))]

theorem strdup_id (s : List Char) (h : ∀ c ∈ s, c ≠ Char.ofNat 0) : strdup s = s := by
  unfold strdup
  rw [List.takeWhile_eq_self_iff]
  intro c hc
  simpa using h c hc

theorem trim_brackets_id (s : List Char) (h : ∀ c ∈ s, c ≠ '[' ∧ c ≠ ']') :
    trim_brackets s = s := by
  have h1 : s.head? ≠ some '[' := fun hc => (h '[' (List.mem_of_mem_head? hc)).1 rfl
  have h2 : s.getLast? ≠ some ']' := fun hc => (h ']' (List.mem_of_getLast?_eq_some hc)).2 rfl
  unfold trim_brackets
  simp only [h1, if_false, h2, and_false]

theorem trim_brackets_wrapped (s : List Char) :
    trim_brackets ('[' :: (s ++ [']'])) = s := by
  unfold trim_brackets
  simp

/-- Decoding a text whose body, after `strdup` and `trim_brackets`, is a
comma-joined list of well-formed tokens. -/
theorem idset_decode_toks (str : List Char) (toks : List Tok) (h : ∀ t ∈ toks, t.wf)
    (hstr : trim_brackets (strdup str) = join_commas (toks.map Tok.text)) :
    ∃ s, idset_decode (some str) = .ok s ∧ pgood s ∧ s.flags = IDSET_FLAG_AUTOGROW
      ∧ s.magic = IDSET_MAGIC ∧ 1024 ≤ s.T.M
      ∧ ∀ x, x ∈ s.T.D ↔ ∃ t ∈ toks, t.lo ≤ x ∧ x ≤ t.hi := by
  have htoks : tokens (join_commas (toks.map Tok.text)) = toks.map Tok.text := by
    apply tokens_join
    intro t ht
    obtain ⟨u, hu, rfl⟩ := List.mem_map.1 ht
    exact ⟨(tok_text_chars u (h u hu)).1, (tok_text_chars u (h u hu)).2.1⟩
  have hbounds : ∀ t ∈ toks, 0 ≤ t.lo ∧ t.lo < 1073741823 ∧ t.hi < 1073741823 := by
    intro t ht
    have := h t ht
    cases t with
    | one a =>
      obtain ⟨_, hv⟩ := this
      simp only [Tok.lo, Tok.hi]
      omega
    | two a b =>
      obtain ⟨_, _, hva, hvb⟩ := this
      simp only [Tok.lo, Tok.hi]
      omega
  obtain ⟨s, h1, hg, hf, hm, hM, hmem⟩ := decode_tokens_ok (toks.map Tok.text) decode_start
    decode_start_good (by
      intro t ht
      obtain ⟨u, hu, rfl⟩ := List.mem_map.1 ht
      have := hbounds u hu
      exact ⟨u.hi, u.lo, parse_range_tok u (h u hu), by omega, by omega⟩)
  refine ⟨s, ?_, hg, hf, hm, hM, ?_⟩
  · rw [idset_decode_eq, hstr, htoks]
    exact h1
  · intro x
    rw [hmem x]
    constructor
    · rintro (h2 | ⟨t, ht, hi, lo, hp, h3⟩)
      · simp [decode_start, vebnew] at h2
      · obtain ⟨u, hu, rfl⟩ := List.mem_map.1 ht
        rw [parse_range_tok u (h u hu)] at hp
        simp only [Option.some.injEq, Prod.mk.injEq] at hp
        obtain ⟨rfl, rfl⟩ := hp
        exact ⟨u, hu, h3.1, h3.2.1⟩
    · rintro ⟨u, hu, h3⟩
      have := hbounds u hu
      exact Or.inr ⟨u.text, List.mem_map.2 ⟨u, hu, rfl⟩, u.hi, u.lo,
        parse_range_tok u (h u hu), h3.1, h3.2, by omega⟩

/-! ## Decoder claims -/

theorem mem_run_ids (r : Int × Int) (x : Int) : x ∈ run_ids r ↔ r.1 ≤ x ∧ x ≤ r.2 := by
  unfold run_ids
  simp only [List.mem_map, List.mem_range]
  constructor
  · rintro ⟨k, hk, rfl⟩
    omega
  · rintro ⟨h1, h2⟩
    exact ⟨(x - r.1).toNat, by omega, by omega⟩

theorem mem_runs_iff (l : List Int) (x : Int) :
    x ∈ l ↔ ∃ r ∈ runs l, r.1 ≤ x ∧ x ≤ r.2 := by
  conv_lhs => rw [← runs_flatten l]
  simp only [List.mem_flatten, List.mem_map]
  constructor
  · rintro ⟨ids, ⟨r, hr, rfl⟩, hx⟩
    exact ⟨r, hr, (mem_run_ids r x).1 hx⟩
  · rintro ⟨r, hr, hx⟩
    exact ⟨run_ids r, ⟨r, hr, rfl⟩, (mem_run_ids r x).2 hx⟩

theorem runs_mem (l : List Int) (r : Int × Int) (hr : r ∈ runs l) : r.1 ∈ l ∧ r.2 ∈ l := by
  have hle := runs_le l r hr
  exact ⟨(mem_runs_iff l r.1).2 ⟨r, hr, le_refl _, hle⟩,
    (mem_runs_iff l r.2).2 ⟨r, hr, hle, le_refl _⟩⟩

theorem fmt_d_is_number (n : Int) (h : 0 ≤ n) : is_number (fmt_d n) :=
  ⟨fmt_d_ne_nil n, fmt_d_isdigit n h⟩

theorem run_tok_spec (r : Int × Int) (h1 : 0 ≤ r.1) (h2 : 0 ≤ r.2)
    (h3 : r.1 < 1073741823) (h4 : r.2 < 1073741823) :
    (run_tok r).wf ∧ (run_tok r).text = render_run r ∧ (run_tok r).lo = r.1
      ∧ (run_tok r).hi = r.2 := by
  have v1 := fmt_d_value r.1 h1
  have v2 := fmt_d_value r.2 h2
  unfold run_tok render_run
  by_cases h : r.1 = r.2
  · simp only [h, if_true, Tok.wf, Tok.text, Tok.lo, Tok.hi]
    exact ⟨⟨fmt_d_is_number _ h2, by omega⟩, trivial, v2, v2⟩
  · simp only [h, if_false, Tok.wf, Tok.text, Tok.lo, Tok.hi]
    exact ⟨⟨fmt_d_is_number _ h1, fmt_d_is_number _ h2, by omega, by omega⟩, trivial, v1, v2⟩

/-- Decoding the comma-joined text of well-formed tokens, bare or wrapped in
brackets. -/
theorem idset_decode_body (toks : List Tok) (h : ∀ t ∈ toks, t.wf) (wrapped : Bool) :
    ∃ s, idset_decode (some (if wrapped then '[' :: (join_commas (toks.map Tok.text) ++ [']'])
        else join_commas (toks.map Tok.text))) = .ok s
      ∧ pgood s ∧ s.flags = IDSET_FLAG_AUTOGROW ∧ s.magic = IDSET_MAGIC ∧ 1024 ≤ s.T.M
      ∧ ∀ x, x ∈ s.T.D ↔ ∃ t ∈ toks, t.lo ≤ x ∧ x ≤ t.hi := by
  have hch : ∀ c ∈ join_commas (toks.map Tok.text), body_char c := by
    apply join_commas_chars
    intro t ht
    obtain ⟨u, hu, rfl⟩ := List.mem_map.1 ht
    exact (tok_text_chars u (h u hu)).2.2
  apply idset_decode_toks _ toks h
  cases wrapped with
  | false =>
    simp only [Bool.false_eq_true, if_false]
    rw [strdup_id _ (fun c hc => (body_char_ne c (hch c hc)).1),
      trim_brackets_id _ (fun c hc => (body_char_ne c (hch c hc)).2)]
  | true =>
    simp only [if_true]
    rw [strdup_id, trim_brackets_wrapped]
    intro c hc
    simp only [List.mem_cons, List.mem_append, List.mem_singleton, List.not_mem_nil,
      or_false] at hc
    rcases hc with rfl | hc | rfl
    · decide
    · exact (body_char_ne c (hch c hc)).1
    · decide

/-- C3: decode semantics.  For every comma-separated list of tokens, each a
sequence of decimal digits `n` or a pair `a-b` of such sequences, with all
values below `2^30 - 1`, `idset_decode` returns a set whose members are
exactly the union over the tokens of `{n}` and `{a, ..., b}` (the interval of
a descending pair is empty). -/
theorem decode_semantics (toks : List Tok) (h : ∀ t ∈ toks, t.wf) :
    ∃ s, idset_decode (some (join_commas (toks.map Tok.text))) = .ok s
      ∧ ∀ x, x ∈ s.T.D ↔ ∃ t ∈ toks, t.lo ≤ x ∧ x ≤ t.hi := by
  obtain ⟨s, h1, _, _, _, _, h2⟩ := idset_decode_body toks h false
  exact ⟨s, by simpa using h1, h2⟩

/-- Witness for C3: `1-3,7,9-10` decodes to the members `{1,2,3,7,9,10}`. -/
theorem decode_semantics_witness :
    (∃ s, idset_decode (some "1-3,7,9-10".toList) = .ok s
        ∧ ∀ x, x ∈ s.T.D ↔ ∃ t ∈ [Tok.two ['1'] ['3'], Tok.one ['7'], Tok.two ['9'] ['1', '0']],
            t.lo ≤ x ∧ x ≤ t.hi)
      ∧ idset_decode (some "1-3,7,9-10".toList)
          = .ok ⟨IDSET_MAGIC, ⟨1024, [1, 2, 3, 7, 9, 10]⟩, 1⟩ :=
  ⟨decode_semantics [Tok.two ['1'] ['3'], Tok.one ['7'], Tok.two ['9'] ['1', '0']]
    (by decide), by decide⟩

/-- C9: descending range.  A token `first-second` of digit sequences with
`second < first` is parsed without error, the insertion loop for a range with
`hi < lo` performs no insertion and returns the set as it is, and decoding
such a token alone returns the empty set. -/
theorem descending_range (a b : List Char) (ha : is_number a) (hb : is_number b)
    (hva : digits_value a < 2147483648) (hlt : digits_value b < digits_value a) :
    parse_range (a ++ '-' :: b) = some ((digits_value b : Int), (digits_value a : Int))
      ∧ (∀ s hi lo, hi < lo → decode_for 4294967297 s hi lo = .ok s)
      ∧ idset_decode (some (a ++ '-' :: b)) = .ok decode_start := by
  have hp := parse_range_two a b ha hb hva (by omega)
  have hskip : ∀ (s : idset) (hi lo : Int), hi < lo → decode_for 4294967297 s hi lo = .ok s :=
    fun s hi lo h => decode_for_skip _ s hi lo h
  refine ⟨hp, hskip, ?_⟩
  have hwf : (Tok.two a b).wf ∨ True := Or.inr trivial
  have hch : ∀ c ∈ a ++ '-' :: b, body_char c := by
    intro c hc
    simp only [List.mem_append, List.mem_cons] at hc
    rcases hc with hc | rfl | hc
    · exact Or.inl (ha.2 c hc)
    · exact Or.inr (Or.inl rfl)
    · exact Or.inl (hb.2 c hc)
  have hcomma : ∀ c ∈ a ++ '-' :: b, c ≠ ',' := by
    intro c hc
    simp only [List.mem_append, List.mem_cons] at hc
    rcases hc with hc | rfl | hc
    · exact isdigit_ne_comma c (ha.2 c hc)
    · decide
    · exact isdigit_ne_comma c (hb.2 c hc)
  rw [idset_decode_eq, strdup_id _ (fun c hc => (body_char_ne c (hch c hc)).1),
    trim_brackets_id _ (fun c hc => (body_char_ne c (hch c hc)).2),
    tokens_single _ (by simp) hcomma, decode_tokens, hp]
  simp only
  rw [hskip decode_start _ _ (by omega)]
  rfl

/-- Witness for C9: `7-3` decodes to the empty set. -/
theorem descending_range_witness :
    idset_decode (some "7-3".toList) = .ok ⟨IDSET_MAGIC, ⟨1024, []⟩, 1⟩ :=
  (descending_range ['7'] ['3'] (by decide) (by decide) (by decide) (by decide)).2.2

/-- C4, as stated, fails: the tokens `+5` and ` 5` are not sequences of
decimal digits, and `1,,2` has an empty piece between its commas, yet
`idset_decode` accepts all three texts; and when an earlier token makes the
capacity doubling overflow, as in `1073741823,abc`, the call does not return
at all. -/
theorem decode_rejects_counterexample :
    ¬ strict_token "+5".toList
      ∧ "+5".toList ∈ split_commas (trim_brackets "+5".toList)
      ∧ idset_decode (some "+5".toList) = .ok ⟨IDSET_MAGIC, ⟨1024, [5]⟩, 1⟩
      ∧ idset_decode (some " 5".toList) = .ok ⟨IDSET_MAGIC, ⟨1024, [5]⟩, 1⟩
      ∧ idset_decode (some "1,,2".toList) = .ok ⟨IDSET_MAGIC, ⟨1024, [1, 2]⟩, 1⟩
      ∧ idset_decode (some "1073741823,abc".toList) = .loops := by
  refine ⟨?_, by decide, by decide, by decide, by decide, by decide⟩
  rintro (h | ⟨a, b, h, _, _⟩)
  · exact absurd (h.2 '+' (by decide)) (by decide)
  · have hm : '-' ∈ "+5".toList := by
      rw [h]
      simp
    exact absurd hm (by decide)

theorem number_like_last (t : List Char) (h : number_like t) :
    ∃ c, t.getLast? = some c ∧ isdigit c = true := by
  obtain ⟨ws, sg, ds, rfl, _, _, hne, hd⟩ := h
  refine ⟨ds.getLast hne, ?_, hd _ (List.getLast_mem hne)⟩
  rw [List.getLast?_append_of_ne_nil _ hne, List.getLast?_eq_getLast _ hne]

theorem token_ok_last (t : List Char) (h : token_ok t) :
    ∃ c, t.getLast? = some c ∧ isdigit c = true := by
  rcases h with h | ⟨a, b, rfl, _, hb⟩
  · exact number_like_last t h
  · obtain ⟨c, hc, hd⟩ := number_like_last b hb
    refine ⟨c, ?_, hd⟩
    cases b with
    | nil => simp at hc
    | cons b0 bs =>
      rw [List.getLast?_append_of_ne_nil _ (by simp), List.getLast?_cons_cons]
      exact hc

theorem not_token_ok (t : List Char) (h : t.getLast?.map isdigit ≠ some true) :
    ¬ token_ok t := by
  intro hok
  obtain ⟨c, hc, hd⟩ := token_ok_last t hok
  rw [hc] at h
  simp [hd] at h

theorem safe_tok_spec (t : List Char) (h : safe_tok t = true) (hi lo : Int)
    (hp : parse_range t = some (hi, lo)) : -2147483648 < lo ∧ hi < 1073741823 := by
  unfold safe_tok at h
  rw [hp] at h
  simpa using h

/-- C4 amended: decode rejects malformed input in the syntax of `strtoul`.
When, after at most one leading `[` and one trailing `]` are stripped, some
non-empty piece between commas is neither a number (optional white space, an
optional sign, at least one decimal digit) nor two numbers joined by `-`, and
the tokens that do parse cause no `int` overflow, `idset_decode` fails with
`EINVAL` and returns no set, whatever tokens come before. -/
theorem decode_rejects_malformed (str tok : List Char)
    (htok : tok ∈ tokens (trim_brackets (strdup str))) (hbad : ¬ token_ok tok)
    (hsafe : ∀ t ∈ tokens (trim_brackets (strdup str)), safe_tok t = true) :
    idset_decode (some str) = .fail .EINVAL := by
  rw [idset_decode_eq]
  apply decode_tokens_bad _ decode_start decode_start_good
    (fun t ht hi lo hp => safe_tok_spec t (hsafe t ht) hi lo hp)
  refine ⟨tok, htok, ?_⟩
  cases hp : parse_range tok with
  | none => rfl
  | some x => exact absurd (parse_range_shape tok x hp) hbad

/-- Witness for C4 amended: `abc`, `3-` and `[1-3,3-]` are rejected. -/
theorem decode_rejects_malformed_witness :
    idset_decode (some "abc".toList) = .fail .EINVAL
      ∧ idset_decode (some "3-".toList) = .fail .EINVAL
      ∧ idset_decode (some "[1-3,3-]".toList) = .fail .EINVAL :=
  ⟨decode_rejects_malformed "abc".toList "abc".toList (by decide)
      (not_token_ok _ (by decide)) (by decide),
    decode_rejects_malformed "3-".toList "3-".toList (by decide)
      (not_token_ok _ (by decide)) (by decide),
    decode_rejects_malformed "[1-3,3-]".toList "3-".toList (by decide)
      (not_token_ok _ (by decide)) (by decide)⟩

theorem ranged_encoding_body (s : idset) (hs : valid_set s) :
    idset_encode (some s) (IDSET_FLAG_BRACKETS ||| IDSET_FLAG_RANGE)
      = .ok (if decide (2 ≤ s.T.D.length) = true then '[' :: (render_ranged s.T.D ++ [']'])
          else render_ranged s.T.D) := by
  rw [idset_encode_core s hs _ (by decide)]
  simp [IDSET_FLAG_RANGE, IDSET_FLAG_BRACKETS, flag_bits]

/-- C1: round trip.  For every valid set whose members are below `2^30 - 1`,
`idset_encode` with brackets and ranges returns a text, `idset_decode` of that
text returns a set, and the members of that set are exactly the members of
the original (brackets are absent from the text of an empty or singleton
set). -/
theorem round_trip (s : idset) (hs : valid_set s) (hb : ∀ x ∈ s.T.D, x < 1073741823) :
    ∃ str s1, idset_encode (some s) (IDSET_FLAG_BRACKETS ||| IDSET_FLAG_RANGE) = .ok str
      ∧ idset_decode (some str) = .ok s1 ∧ ∀ x, x ∈ s1.T.D ↔ x ∈ s.T.D := by
  have hr : ∀ r ∈ runs s.T.D, 0 ≤ r.1 ∧ 0 ≤ r.2 ∧ r.1 < 1073741823 ∧ r.2 < 1073741823 := by
    intro r hr
    obtain ⟨m1, m2⟩ := runs_mem _ r hr
    exact ⟨(hs.2.2.2 _ m1).1, (hs.2.2.2 _ m2).1, hb _ m1, hb _ m2⟩
  have hspec : ∀ r ∈ runs s.T.D, (run_tok r).wf ∧ (run_tok r).text = render_run r
      ∧ (run_tok r).lo = r.1 ∧ (run_tok r).hi = r.2 := fun r h =>
    run_tok_spec r (hr r h).1 (hr r h).2.1 (hr r h).2.2.1 (hr r h).2.2.2
  have hwf : ∀ t ∈ (runs s.T.D).map run_tok, t.wf := by
    intro t ht
    obtain ⟨r, h, rfl⟩ := List.mem_map.1 ht
    exact (hspec r h).1
  have htext : join_commas (((runs s.T.D).map run_tok).map Tok.text) = render_ranged s.T.D := by
    unfold render_ranged
    rw [List.map_map]
    congr 1
    apply List.map_congr_left
    intro r h
    exact (hspec r h).2.1
  obtain ⟨s1, h1, _, _, _, _, hmem⟩ :=
    idset_decode_body ((runs s.T.D).map run_tok) hwf (decide (2 ≤ s.T.D.length))
  refine ⟨_, s1, (ranged_encoding_body s hs), ?_, ?_⟩
  · rw [htext] at h1
    simpa [render_ranged] using h1
  · intro x
    rw [hmem x, mem_runs_iff]
    constructor
    · rintro ⟨t, ht, hx⟩
      obtain ⟨r, h, rfl⟩ := List.mem_map.1 ht
      rw [(hspec r h).2.2.1, (hspec r h).2.2.2] at hx
      exact ⟨r, h, hx⟩
    · rintro ⟨r, h, hx⟩
      refine ⟨run_tok r, List.mem_map.2 ⟨r, h, rfl⟩, ?_⟩
      rw [(hspec r h).2.2.1, (hspec r h).2.2.2]
      exact hx

/-- Witness for C1: the set `{1,2,3,7,9,10}`. -/
theorem round_trip_witness :
    ∃ str s1, idset_encode (some ⟨IDSET_MAGIC, ⟨1024, [1, 2, 3, 7, 9, 10]⟩, 1⟩)
        (IDSET_FLAG_BRACKETS ||| IDSET_FLAG_RANGE) = .ok str
      ∧ idset_decode (some str) = .ok s1
      ∧ ∀ x, x ∈ s1.T.D ↔ x ∈ [(1 : Int), 2, 3, 7, 9, 10] :=
  round_trip ⟨IDSET_MAGIC, ⟨1024, [1, 2, 3, 7, 9, 10]⟩, 1⟩ (by decide) (by decide)

/-! ## Invariants of insertion and decoding -/

theorem wrap32_range (x : Int) : -2147483648 ≤ wrap32 x ∧ wrap32 x < 2147483648 := by
  unfold wrap32
  omega

theorem grow_copy_M (old : Veb) : ∀ (fuel : Nat) (id : Int) (T T1 : Veb),
    grow_copy old fuel id T = some T1 → T1.M = T.M := by
  intro fuel
  induction fuel with
  | zero => intro id T T1 h; simp [grow_copy] at h
  | succ f ih =>
    intro id T T1 h
    rw [grow_copy] at h
    split at h
    · rw [ih _ _ _ h, vebput_M]
    · simp only [Option.some.injEq] at h
      rw [← h]

theorem grow_loop_gt (slots : Int) : ∀ (f : Nat) (m r : Int),
    grow_loop f m slots = some r → slots < r := by
  intro f
  induction f with
  | zero => intro m r hm; simp [grow_loop] at hm
  | succ f ih =>
    intro m r hm
    rw [grow_loop] at hm
    split at hm
    · exact ih _ _ hm
    · simp only [Option.some.injEq] at hm
      omega

/-- Whenever `idset_grow` returns, the capacity exceeds `slots`, also for a
store that is not well formed. -/
theorem idset_grow_gt (s s1 : idset) (slots : Int) (h : idset_grow s slots = .ok s1) :
    slots < s1.T.M := by
  unfold idset_grow at h
  cases hg : grow_loop 64 s.T.M slots with
  | none => simp [hg] at h
  | some n =>
    have hslots := grow_loop_gt slots _ _ _ hg
    simp only [hg] at h
    by_cases hn : n > s.T.M
    · rw [if_pos hn] at h
      cases hc : grow_copy s.T (s.T.M.toNat + 1) (vebsucc s.T 0) (vebnew n) with
      | none => simp [hc] at h
      | some T =>
        have hM := grow_copy_M _ _ _ _ _ hc
        simp only [hc, Outcome.ok.injEq] at h
        subst h
        have := le_round_pow2 n
        simp only [vebnew] at hM
        simp only
        omega
    · rw [if_neg hn] at h
      simp only [Outcome.ok.injEq] at h
      subst h
      omega

theorem idset_grow_noop (s : idset) (slots : Int) (h : slots < s.T.M) :
    idset_grow s slots = .ok s := by
  unfold idset_grow
  have : grow_loop 64 s.T.M slots = some s.T.M := by
    rw [grow_loop, if_neg (by omega)]
  rw [this]
  simp

theorem insert_id_idem (x : Int) (l : List Int) : insert_id x (insert_id x l) = insert_id x l := by
  induction l with
  | nil => simp [insert_id]
  | cons y ys ih =>
    by_cases h1 : x < y
    · simp [insert_id, h1]
    · by_cases h2 : x = y
      · simp [insert_id, h2]
      · simp [insert_id, h1, h2, ih]

theorem vebput_idem (T : Veb) (x : Int) : vebput (vebput T x) x = vebput T x := by
  unfold vebput
  by_cases h : 0 ≤ x ∧ x < T.M
  · simp only [h, and_self, if_true, insert_id_idem]
  · simp only [h, if_false]

/-- An insertion that returns keeps a well-formed store well formed and never
shrinks the capacity. -/
theorem idset_set_valid (s s1 : idset) (id : Int) (hv : valid s.T)
    (h : idset_set s id = .ok s1) :
    valid s1.T ∧ s.T.M ≤ s1.T.M ∧ s1.flags = s.flags ∧ s1.magic = s.magic := by
  unfold idset_set at h
  cases hgr : idset_grow s (wrap32 (id + 1)) with
  | ok s2 =>
    obtain ⟨hD, hf, hm, hM, _⟩ := idset_grow_returns s s2 _ hv hgr
    simp only [hgr, Outcome.ok.injEq] at h
    subst h
    refine ⟨vebput_valid _ _ ⟨by have := hv.1; omega, hD ▸ hv.2.1, fun x hx => ?_⟩,
      by simp only [vebput_M]; exact hM, hf, hm⟩
    have := hv.2.2 x (hD ▸ hx)
    omega
  | fail e => simp [hgr] at h
  | loops => simp [hgr] at h

/-- An insertion that returns keeps the capacity a power of two. -/
theorem idset_set_pow2_inv (s s1 : idset) (id : Int) (hv : valid s.T) (hp : is_pow2 s.T.M)
    (h : idset_set s id = .ok s1) : is_pow2 s1.T.M := by
  obtain ⟨e, he⟩ := hp
  rcases Nat.lt_or_ge 30 e with h30 | h30
  · have hbig : (2147483648 : Int) ≤ s.T.M := by
      have := (two_pow_le 31 e).2 (by omega)
      rw [he]
      norm_num at this ⊢
      exact this
    have hw := wrap32_range (id + 1)
    unfold idset_set at h
    rw [idset_grow_noop s _ (by omega)] at h
    simp only [Outcome.ok.injEq] at h
    subst h
    exact ⟨e, by simp only [vebput_M]; exact he⟩
  · rw [idset_set_pow2 s id ⟨hv, e, h30, he⟩] at h
    split at h
    · rename_i hlt
      simp only [Outcome.ok.injEq] at h
      subst h
      obtain ⟨_, y, _, hy⟩ := pgood_grown s _ ⟨hv, e, h30, he⟩ hlt id
      exact ⟨y, hy⟩
    · simp at h

theorem idset_set_pgood (s s1 : idset) (id : Int) (hg : pgood s)
    (h : idset_set s id = .ok s1) :
    pgood s1 ∧ s.T.M ≤ s1.T.M ∧ s1.flags = s.flags ∧ s1.magic = s.magic := by
  obtain ⟨hv1, hM, hf, hm⟩ := idset_set_valid s s1 id hg.1 h
  refine ⟨?_, hM, hf, hm⟩
  rw [idset_set_pow2 s id hg] at h
  split at h
  · rename_i hlt
    simp only [Outcome.ok.injEq] at h
    subst h
    exact pgood_grown s _ hg hlt id
  · simp at h

theorem decode_for_pgood : ∀ (fuel : Nat) (s s1 : idset) (i lo : Int), pgood s →
    decode_for fuel s i lo = .ok s1 →
    pgood s1 ∧ s.T.M ≤ s1.T.M ∧ s1.flags = s.flags ∧ s1.magic = s.magic := by
  intro fuel
  induction fuel with
  | zero => intro s s1 i lo _ h; simp [decode_for] at h
  | succ f ih =>
    intro s s1 i lo hg h
    rw [decode_for] at h
    split at h
    · cases hs : idset_set s i with
      | ok s2 =>
        obtain ⟨hg2, hM2, hf2, hm2⟩ := idset_set_pgood s s2 i hg hs
        simp only [hs] at h
        obtain ⟨hg1, hM1, hf1, hm1⟩ := ih s2 s1 _ lo hg2 h
        exact ⟨hg1, le_trans hM2 hM1, by rw [hf1, hf2], by rw [hm1, hm2]⟩
      | fail e => simp [hs] at h
      | loops => simp [hs] at h
    · simp only [Outcome.ok.injEq] at h
      subst h
      exact ⟨hg, le_refl _, rfl, rfl⟩

theorem decode_tokens_pgood (toks : List (List Char)) : ∀ (s s1 : idset), pgood s →
    decode_tokens s toks = .ok s1 →
    pgood s1 ∧ s.T.M ≤ s1.T.M ∧ s1.flags = s.flags ∧ s1.magic = s.magic := by
  induction toks with
  | nil =>
    intro s s1 hg h
    simp only [decode_tokens, Outcome.ok.injEq] at h
    subst h
    exact ⟨hg, le_refl _, rfl, rfl⟩
  | cons t toks ih =>
    intro s s1 hg h
    rw [decode_tokens] at h
    cases hp : parse_range t with
    | none => simp [hp] at h
    | some x =>
      obtain ⟨hi, lo⟩ := x
      simp only [hp] at h
      cases hd : decode_for 4294967297 s hi lo with
      | ok s2 =>
        obtain ⟨hg2, hM2, hf2, hm2⟩ := decode_for_pgood _ s s2 hi lo hg hd
        simp only [hd] at h
        obtain ⟨hg1, hM1, hf1, hm1⟩ := ih s2 s1 hg2 h
        exact ⟨hg1, le_trans hM2 hM1, by rw [hf1, hf2], by rw [hm1, hm2]⟩
      | fail e => simp [hd] at h
      | loops => simp [hd] at h

/-- Every set that `idset_decode` returns is well formed, with a capacity
that is a power of two between 1024 and `2^30`. -/
theorem idset_decode_pgood (str : List Char) (s : idset)
    (h : idset_decode (some str) = .ok s) :
    pgood s ∧ 1024 ≤ s.T.M ∧ s.flags = IDSET_FLAG_AUTOGROW ∧ s.magic = IDSET_MAGIC := by
  rw [idset_decode_eq] at h
  obtain ⟨hg, hM, hf, hm⟩ := decode_tokens_pgood _ decode_start s decode_start_good h
  have h0 : decode_start.T.M = 1024 := by decide
  exact ⟨hg, by omega, hf, hm⟩

/-! ## Flag words -/

/-- A 32-bit flag word passes the test against the mask `m` exactly when it
has no bit outside `m`, that is, when it is at most `m` bitwise. -/
theorem flags_within (flags m c : Nat) (hf : flags < 4294967296)
    (hc : c ||| m = 4294967295) (h : flags &&& c = 0) : flags ≤ m := by
  have h1 : flags &&& (2 ^ 32 - 1) = flags :=
    Nat.and_pow_two_sub_one_of_lt_two_pow (by norm_num; exact hf)
  have h2 : (2 : Nat) ^ 32 - 1 = c ||| m := by
    rw [hc]
    norm_num
  rw [h2, Nat.and_or_distrib_left, h, Nat.zero_or] at h1
  rw [← h1]
  exact Nat.and_le_right

theorem has_other_bits_encode (flags : Nat) (hf : flags < 4294967296) :
    has_other_bits flags (IDSET_FLAG_BRACKETS ||| IDSET_FLAG_RANGE) = false
      ↔ (flags = 0 ∨ flags = IDSET_FLAG_BRACKETS ∨ flags = IDSET_FLAG_RANGE
          ∨ flags = IDSET_FLAG_BRACKETS ||| IDSET_FLAG_RANGE) := by
  constructor
  · intro h
    have h0 : flags &&& 4294967289 = 0 := by
      simpa [has_other_bits, IDSET_FLAG_BRACKETS, IDSET_FLAG_RANGE] using h
    have hle := flags_within flags 6 4294967289 hf (by decide) h0
    interval_cases flags
    · exact Or.inl rfl
    · exact absurd h0 (by decide)
    · exact Or.inr (Or.inl rfl)
    · exact absurd h0 (by decide)
    · exact Or.inr (Or.inr (Or.inl rfl))
    · exact absurd h0 (by decide)
    · exact Or.inr (Or.inr (Or.inr rfl))
  · rintro (rfl | rfl | rfl | rfl) <;> decide

theorem has_other_bits_create (flags : Nat) (hf : flags < 4294967296) :
    has_other_bits flags IDSET_FLAG_AUTOGROW = false
      ↔ (flags = 0 ∨ flags = IDSET_FLAG_AUTOGROW) := by
  constructor
  · intro h
    have h0 : flags &&& 4294967294 = 0 := by
      simpa [has_other_bits, IDSET_FLAG_AUTOGROW] using h
    have hle := flags_within flags 1 4294967294 hf (by decide) h0
    interval_cases flags
    · exact Or.inl rfl
    · exact Or.inr rfl
  · rintro (rfl | rfl) <;> decide

/-! ## Claims on validation, invariants and idempotence -/

/-- C14: empty set encoding.  For every valid empty set and each of the four
flag combinations, `idset_encode` returns the empty string. -/
theorem empty_set_encoding (s : idset) (hs : valid_set s) (he : s.T.D = []) (f : Nat)
    (hf : f = 0 ∨ f = IDSET_FLAG_BRACKETS ∨ f = IDSET_FLAG_RANGE
      ∨ f = IDSET_FLAG_BRACKETS ||| IDSET_FLAG_RANGE) :
    idset_encode (some s) f = .ok [] := by
  rcases hf with rfl | rfl | rfl | rfl <;>
    rw [idset_encode_core s hs _ (by decide)] <;>
    simp [he, render_ranged, render_simple, runs, join_commas]

/-- Witness for C14: the empty set of capacity 1024 with brackets and ranges. -/
theorem empty_set_encoding_witness :
    idset_encode (some ⟨IDSET_MAGIC, ⟨1024, []⟩, 1⟩)
      (IDSET_FLAG_BRACKETS ||| IDSET_FLAG_RANGE) = .ok [] :=
  empty_set_encoding ⟨IDSET_MAGIC, ⟨1024, []⟩, 1⟩ (by decide) rfl _
    (Or.inr (Or.inr (Or.inr rfl)))

/-- C16: encode flag validation.  For a 32-bit flag word, `idset_encode` fails
with `EINVAL` exactly when the handle is `NULL`, or its magic number is wrong,
or the flags are not one of the four combinations of `IDSET_FLAG_BRACKETS`
and `IDSET_FLAG_RANGE`; and for every valid set and each of the four
combinations it returns a string. -/
theorem encode_flag_validation (p : Option idset) (flags : Nat) (hf : flags < 4294967296) :
    (idset_encode p flags = .fail .EINVAL ↔
        (p = none ∨ (∃ s, p = some s ∧ s.magic ≠ IDSET_MAGIC)
          ∨ ¬ (flags = 0 ∨ flags = IDSET_FLAG_BRACKETS ∨ flags = IDSET_FLAG_RANGE
            ∨ flags = IDSET_FLAG_BRACKETS ||| IDSET_FLAG_RANGE)))
      ∧ (∀ s, p = some s → valid_set s →
          (flags = 0 ∨ flags = IDSET_FLAG_BRACKETS ∨ flags = IDSET_FLAG_RANGE
            ∨ flags = IDSET_FLAG_BRACKETS ||| IDSET_FLAG_RANGE) →
          ∃ str, idset_encode p flags = .ok str) := by
  have hb := has_other_bits_encode flags hf
  constructor
  · cases p with
    | none => simp [idset_encode]
    | some s =>
      by_cases hm : s.magic = IDSET_MAGIC
      · by_cases ho : has_other_bits flags (IDSET_FLAG_BRACKETS ||| IDSET_FLAG_RANGE) = false
        · have hfl := hb.1 ho
          constructor
          · intro h
            exfalso
            unfold idset_encode at h
            simp only [hm, ho, ne_eq, not_true_eq_false, Bool.false_eq_true, or_self,
              if_false] at h
            revert h
            split
            · simp
            · split <;> split <;> simp
          · rintro (h | ⟨s2, h2, h3⟩ | h)
            · simp at h
            · simp only [Option.some.injEq] at h2
              subst h2
              exact absurd hm h3
            · exact absurd hfl h
        · have ho2 : has_other_bits flags (IDSET_FLAG_BRACKETS ||| IDSET_FLAG_RANGE) = true := by
            simpa using ho
          constructor
          · intro _
            exact Or.inr (Or.inr (fun h => ho (hb.2 h)))
          · intro _
            simp [idset_encode, ho2]
      · constructor
        · intro _
          exact Or.inr (Or.inl ⟨s, rfl, hm⟩)
        · intro _
          simp [idset_encode, hm]
  · intro s hp hs hfl
    subst hp
    exact ⟨_, idset_encode_core s hs flags (hb.2 hfl)⟩

/-- Witness for C16: a valid set with the flag word 8 is rejected, and with
the flag word 6 it is encoded. -/
theorem encode_flag_validation_witness :
    idset_encode (some ⟨IDSET_MAGIC, ⟨1024, [5]⟩, 1⟩) 8 = .fail .EINVAL
      ∧ ∃ str, idset_encode (some ⟨IDSET_MAGIC, ⟨1024, [5]⟩, 1⟩) 6 = .ok str :=
  ⟨((encode_flag_validation (some ⟨IDSET_MAGIC, ⟨1024, [5]⟩, 1⟩) 8 (by decide)).1).2
      (Or.inr (Or.inr (by decide))),
    (encode_flag_validation (some ⟨IDSET_MAGIC, ⟨1024, [5]⟩, 1⟩) 6 (by decide)).2 _ rfl
      (by decide) (by decide)⟩

/-- C17: create validation.  For a 32-bit flag word, `idset_create` fails with
`EINVAL` exactly when `slots = 0` or the flags are neither 0 nor
`IDSET_FLAG_AUTOGROW`; otherwise it returns an empty set that records the
given flags, with a well-formed store that holds `slots` ids. -/
theorem create_validation (slots flags : Nat) (hf : flags < 4294967296) :
    (idset_create slots flags = .fail .EINVAL ↔
        (slots = 0 ∨ ¬ (flags = 0 ∨ flags = IDSET_FLAG_AUTOGROW)))
      ∧ (slots ≠ 0 → (flags = 0 ∨ flags = IDSET_FLAG_AUTOGROW) →
          ∃ s, idset_create slots flags = .ok s ∧ s.T.D = [] ∧ s.flags = flags
            ∧ s.magic = IDSET_MAGIC ∧ valid s.T ∧ (slots : Int) ≤ s.T.M) := by
  have hb := has_other_bits_create flags hf
  constructor
  · unfold idset_create
    by_cases h0 : slots = 0
    · simp [h0]
    · by_cases ho : has_other_bits flags IDSET_FLAG_AUTOGROW = false
      · have := hb.1 ho
        simp [h0, ho, this]
      · have ho2 : has_other_bits flags IDSET_FLAG_AUTOGROW = true := by simpa using ho
        have : ¬ (flags = 0 ∨ flags = IDSET_FLAG_AUTOGROW) := fun h => ho (hb.2 h)
        simp [h0, ho2, this]
  · intro h0 hfl
    refine ⟨⟨IDSET_MAGIC, vebnew (slots : Int), flags⟩, by simp [idset_create, h0, hb.2 hfl],
      rfl, rfl, rfl, ?_, le_round_pow2 _⟩
    obtain ⟨e, he, _⟩ := round_pow2_spec (slots : Int)
    refine ⟨?_, by simp [vebnew], by simp [vebnew]⟩
    simp only [vebnew]
    rw [he]
    exact two_pow_pos e

/-- Witness for C17: `idset_create (1024, IDSET_FLAG_AUTOGROW)` returns the
empty set of capacity 1024, and `idset_create (0, 0)` and
`idset_create (16, 2)` fail. -/
theorem create_validation_witness :
    idset_create 1024 IDSET_FLAG_AUTOGROW = .ok ⟨IDSET_MAGIC, ⟨1024, []⟩, 1⟩
      ∧ idset_create 0 0 = .fail .EINVAL
      ∧ idset_create 16 2 = .fail .EINVAL :=
  ⟨by decide, ((create_validation 0 0 (by decide)).1).2 (Or.inl rfl),
    ((create_validation 16 2 (by decide)).1).2 (Or.inr (by decide))⟩

theorem insert_all_inv : ∀ (ids : List Int) (s s1 : idset), valid s.T → is_pow2 s.T.M →
    insert_all s ids = .ok s1 → valid s1.T ∧ is_pow2 s1.T.M ∧ s.T.M ≤ s1.T.M := by
  intro ids
  induction ids with
  | nil =>
    intro s s1 hv hp h
    simp only [insert_all, Outcome.ok.injEq] at h
    subst h
    exact ⟨hv, hp, le_refl _⟩
  | cons i ids ih =>
    intro s s1 hv hp h
    rw [insert_all] at h
    cases hs : idset_set s i with
    | ok s2 =>
      obtain ⟨hv2, hM2, _, _⟩ := idset_set_valid s s2 i hv hs
      have hp2 := idset_set_pow2_inv s s2 i hv hp hs
      simp only [hs] at h
      obtain ⟨hv1, hp1, hM1⟩ := ih s2 s1 hv2 hp2 h
      exact ⟨hv1, hp1, le_trans hM2 hM1⟩
    | fail e => simp [hs] at h
    | loops => simp [hs] at h

/-- C12: capacity invariant.  A set returned by `idset_create` or by
`idset_decode` has a capacity that is a power of two and at least 1; every
insertion that returns, and every sequence of insertions that returns, keeps
the capacity a power of two and never decreases it. -/
theorem capacity_invariant :
    (∀ hint flags s, idset_create hint flags = .ok s →
        valid s.T ∧ is_pow2 s.T.M ∧ 1 ≤ s.T.M)
      ∧ (∀ str s, idset_decode (some str) = .ok s → valid s.T ∧ is_pow2 s.T.M ∧ 1 ≤ s.T.M)
      ∧ (∀ s id s1, valid s.T → is_pow2 s.T.M → idset_set s id = .ok s1 →
          valid s1.T ∧ is_pow2 s1.T.M ∧ 1 ≤ s1.T.M ∧ s.T.M ≤ s1.T.M)
      ∧ (∀ s ids s1, valid s.T → is_pow2 s.T.M → insert_all s ids = .ok s1 →
          valid s1.T ∧ is_pow2 s1.T.M ∧ 1 ≤ s1.T.M ∧ s.T.M ≤ s1.T.M) := by
  refine ⟨?_, ?_, ?_, ?_⟩
  · intro hint flags s h
    unfold idset_create at h
    split at h
    · simp at h
    · simp only [Outcome.ok.injEq] at h
      subst h
      obtain ⟨e, he, _⟩ := round_pow2_spec (hint : Int)
      have h1 := two_pow_pos e
      refine ⟨⟨?_, by simp [vebnew], by simp [vebnew]⟩, ⟨e, ?_⟩, ?_⟩ <;>
        simp only [vebnew] <;> rw [he]
      · exact h1
      · exact h1
  · intro str s h
    obtain ⟨⟨hv, e, _, he⟩, _⟩ := idset_decode_pgood str s h
    exact ⟨hv, ⟨e, he⟩, hv.1⟩
  · intro s id s1 hv hp h
    obtain ⟨hv1, hM, _, _⟩ := idset_set_valid s s1 id hv h
    exact ⟨hv1, idset_set_pow2_inv s s1 id hv hp h, hv1.1, hM⟩
  · intro s ids s1 hv hp h
    obtain ⟨hv1, hp1, hM⟩ := insert_all_inv ids s s1 hv hp h
    exact ⟨hv1, hp1, hv1.1, hM⟩

/-- C13: members-in-range invariant.  Every member of a set returned by
`idset_decode` lies in `[0, capacity)`, and an insertion into a well-formed
set that returns leaves every member in `[0, capacity)`; the capacity itself
is never a member. -/
theorem members_in_range :
    (∀ str s, idset_decode (some str) = .ok s →
        (∀ x ∈ s.T.D, 0 ≤ x ∧ x < s.T.M) ∧ s.T.M ∉ s.T.D)
      ∧ (∀ s id s1, valid s.T → idset_set s id = .ok s1 →
          (∀ x ∈ s1.T.D, 0 ≤ x ∧ x < s1.T.M) ∧ s1.T.M ∉ s1.T.D) := by
  constructor
  · intro str s h
    obtain ⟨⟨hv, _⟩, _⟩ := idset_decode_pgood str s h
    exact ⟨hv.2.2, fun hm => by have := hv.2.2 _ hm; omega⟩
  · intro s id s1 hv h
    obtain ⟨hv1, _⟩ := idset_set_valid s s1 id hv h
    exact ⟨hv1.2.2, fun hm => by have := hv1.2.2 _ hm; omega⟩

theorem idset_set_twice (s s1 : idset) (id : Int) (h : idset_set s id = .ok s1) :
    idset_set s1 id = .ok s1 ∧ idset_grow s1 (wrap32 (id + 1)) = .ok s1 := by
  unfold idset_set at h
  cases hgr : idset_grow s (wrap32 (id + 1)) with
  | ok s2 =>
    have hlt := idset_grow_gt s s2 _ hgr
    simp only [hgr, Outcome.ok.injEq] at h
    subst h
    have hno : idset_grow { s2 with T := vebput s2.T id } (wrap32 (id + 1))
        = .ok { s2 with T := vebput s2.T id } :=
      idset_grow_noop _ _ (by simp only [vebput_M]; exact hlt)
    refine ⟨?_, hno⟩
    unfold idset_set
    rw [hno]
    simp only [vebput_idem]
  | fail e => simp [hgr] at h
  | loops => simp [hgr] at h

/-- C15: idempotent insert.  Whenever `idset_set (s, id)` returns a set, a
second `idset_set` with the same `id` returns that very set (same members,
same capacity), and its call of `idset_grow` changes nothing; and for a valid
set and `0 ≤ id < 2^30 - 1` both insertions do return. -/
theorem idempotent_insert (s : idset) (id : Int) :
    (∀ s1, idset_set s id = .ok s1 →
        idset_set s1 id = .ok s1 ∧ idset_grow s1 (wrap32 (id + 1)) = .ok s1)
      ∧ (good s → 0 ≤ id → id < 1073741823 →
          ∃ s1, idset_set s id = .ok s1 ∧ idset_set s1 id = .ok s1) := by
  refine ⟨fun s1 h => idset_set_twice s s1 id h, fun hg h0 h2 => ?_⟩
  obtain ⟨s1, h1, _⟩ := idset_set_total s id hg h0 h2
  exact ⟨s1, h1, (idset_set_twice s s1 id h1).1⟩

/-- Witness for C15: inserting 9 into `{1,3}` of capacity 4 gives `{1,3,9}` of
capacity 16, and inserting 9 again gives the same set. -/
theorem idempotent_insert_witness :
    idset_set ⟨IDSET_MAGIC, ⟨4, [1, 3]⟩, 1⟩ 9 = .ok ⟨IDSET_MAGIC, ⟨16, [1, 3, 9]⟩, 1⟩
      ∧ idset_set ⟨IDSET_MAGIC, ⟨16, [1, 3, 9]⟩, 1⟩ 9
          = .ok ⟨IDSET_MAGIC, ⟨16, [1, 3, 9]⟩, 1⟩ :=
  ⟨by decide, ((idempotent_insert ⟨IDSET_MAGIC, ⟨4, [1, 3]⟩, 1⟩ 9).1
    ⟨IDSET_MAGIC, ⟨16, [1, 3, 9]⟩, 1⟩ (by decide)).1⟩

/-- Witness for C12: the capacity after `idset_create (3, 0)` and an
insertion of 9 is a power of two that did not decrease. -/
theorem capacity_invariant_witness :
    idset_create 3 0 = .ok ⟨IDSET_MAGIC, ⟨4, []⟩, 0⟩
      ∧ idset_set ⟨IDSET_MAGIC, ⟨4, []⟩, 0⟩ 9 = .ok ⟨IDSET_MAGIC, ⟨16, [9]⟩, 0⟩
      ∧ (valid (⟨16, [9]⟩ : Veb) ∧ is_pow2 16 ∧ (1 : Int) ≤ 16 ∧ (4 : Int) ≤ 16) :=
  ⟨by decide, by decide,
    capacity_invariant.2.2.1 ⟨IDSET_MAGIC, ⟨4, []⟩, 0⟩ 9 ⟨IDSET_MAGIC, ⟨16, [9]⟩, 0⟩
      (by decide) ⟨2, by decide⟩ (by decide)⟩

/-- Witness for C13: the members of the set decoded from `5,7-9` lie below
its capacity 1024. -/
theorem members_in_range_witness :
    (∀ x ∈ [(5 : Int), 7, 8, 9], 0 ≤ x ∧ x < 1024) ∧ (1024 : Int) ∉ [(5 : Int), 7, 8, 9] :=
  members_in_range.1 "5,7-9".toList ⟨IDSET_MAGIC, ⟨1024, [5, 7, 8, 9]⟩, 1⟩ (by decide)

/-! ## Round trip for every flag combination -/

theorem simple_toks_spec (l : List Int) (h : ∀ x ∈ l, 0 ≤ x ∧ x < 1073741823) :
    (∀ t ∈ l.map (fun a => Tok.one (fmt_d a)), t.wf)
      ∧ join_commas ((l.map (fun a => Tok.one (fmt_d a))).map Tok.text) = render_simple l
      ∧ ∀ x, (∃ t ∈ l.map (fun a => Tok.one (fmt_d a)), t.lo ≤ x ∧ x ≤ t.hi) ↔ x ∈ l := by
  refine ⟨?_, ?_, ?_⟩
  · intro t ht
    obtain ⟨a, ha, rfl⟩ := List.mem_map.1 ht
    have hv := fmt_d_value a (h a ha).1
    have := (h a ha).2
    exact ⟨fmt_d_is_number a (h a ha).1, by omega⟩
  · unfold render_simple
    rw [List.map_map]
    rfl
  · intro x
    constructor
    · rintro ⟨t, ht, hx⟩
      obtain ⟨a, ha, rfl⟩ := List.mem_map.1 ht
      have hv := fmt_d_value a (h a ha).1
      simp only [Tok.lo, Tok.hi] at hx
      have : x = a := by omega
      exact this ▸ ha
    · intro hx
      have hv := fmt_d_value x (h x hx).1
      refine ⟨Tok.one (fmt_d x), List.mem_map.2 ⟨x, hx, rfl⟩, ?_⟩
      simp only [Tok.lo, Tok.hi]
      omega

theorem ranged_toks_spec (l : List Int) (h : ∀ x ∈ l, 0 ≤ x ∧ x < 1073741823) :
    (∀ t ∈ (runs l).map run_tok, t.wf)
      ∧ join_commas (((runs l).map run_tok).map Tok.text) = render_ranged l
      ∧ ∀ x, (∃ t ∈ (runs l).map run_tok, t.lo ≤ x ∧ x ≤ t.hi) ↔ x ∈ l := by
  have hspec : ∀ r ∈ runs l, (run_tok r).wf ∧ (run_tok r).text = render_run r
      ∧ (run_tok r).lo = r.1 ∧ (run_tok r).hi = r.2 := by
    intro r hr
    obtain ⟨m1, m2⟩ := runs_mem _ r hr
    exact run_tok_spec r (h _ m1).1 (h _ m2).1 (h _ m1).2 (h _ m2).2
  refine ⟨?_, ?_, ?_⟩
  · intro t ht
    obtain ⟨r, hr, rfl⟩ := List.mem_map.1 ht
    exact (hspec r hr).1
  · unfold render_ranged
    rw [List.map_map]
    congr 1
    apply List.map_congr_left
    intro r hr
    exact (hspec r hr).2.1
  · intro x
    rw [mem_runs_iff]
    constructor
    · rintro ⟨t, ht, hx⟩
      obtain ⟨r, hr, rfl⟩ := List.mem_map.1 ht
      rw [(hspec r hr).2.2.1, (hspec r hr).2.2.2] at hx
      exact ⟨r, hr, hx⟩
    · rintro ⟨r, hr, hx⟩
      refine ⟨run_tok r, List.mem_map.2 ⟨r, hr, rfl⟩, ?_⟩
      rw [(hspec r hr).2.2.1, (hspec r hr).2.2.2]
      exact hx

/-- Decoding any of the texts that `idset_encode` produces for a valid set
with members below `2^30 - 1`. -/
theorem decode_encoded (s : idset) (hs : valid_set s) (hb : ∀ x ∈ s.T.D, x < 1073741823)
    (P Q : Prop) [Decidable P] [Decidable Q] :
    ∃ s1, idset_decode (some (if Q then
          '[' :: ((if P then render_ranged s.T.D else render_simple s.T.D) ++ [']'])
        else (if P then render_ranged s.T.D else render_simple s.T.D))) = .ok s1
      ∧ ∀ x, x ∈ s1.T.D ↔ x ∈ s.T.D := by
  have h : ∀ x ∈ s.T.D, 0 ≤ x ∧ x < 1073741823 := fun x hx => ⟨(hs.2.2.2 x hx).1, hb x hx⟩
  by_cases hP : P
  · obtain ⟨h1, h2, h3⟩ := ranged_toks_spec s.T.D h
    obtain ⟨s1, hd, _, _, _, _, hmem⟩ := idset_decode_body _ h1 (decide Q)
    rw [h2] at hd
    refine ⟨s1, ?_, fun x => by rw [hmem x, h3 x]⟩
    simpa [hP] using hd
  · obtain ⟨h1, h2, h3⟩ := simple_toks_spec s.T.D h
    obtain ⟨s1, hd, _, _, _, _, hmem⟩ := idset_decode_body _ h1 (decide Q)
    rw [h2] at hd
    refine ⟨s1, ?_, fun x => by rw [hmem x, h3 x]⟩
    simpa [hP] using hd

/-- C18: round trip for every flag combination.  For every valid set with
members below `2^30 - 1` and each of the four flag combinations,
`idset_encode` returns a text and `idset_decode` of that text returns a set
with exactly the members of the original; so the simple and the ranged
encodings decode to the same members. -/
theorem round_trip_all_flags (s : idset) (hs : valid_set s)
    (hb : ∀ x ∈ s.T.D, x < 1073741823) (f : Nat)
    (hf : f = 0 ∨ f = IDSET_FLAG_BRACKETS ∨ f = IDSET_FLAG_RANGE
      ∨ f = IDSET_FLAG_BRACKETS ||| IDSET_FLAG_RANGE) :
    ∃ str s1, idset_encode (some s) f = .ok str ∧ idset_decode (some str) = .ok s1
      ∧ ∀ x, x ∈ s1.T.D ↔ x ∈ s.T.D := by
  have hc := idset_encode_core s hs f (by rcases hf with rfl | rfl | rfl | rfl <;> decide)
  obtain ⟨s1, h1, h2⟩ := decode_encoded s hs hb (f &&& IDSET_FLAG_RANGE ≠ 0)
    (f &&& IDSET_FLAG_BRACKETS ≠ 0 ∧ 2 ≤ s.T.D.length)
  exact ⟨_, s1, hc, h1, h2⟩

/-- Witness for C18: the set `{1,2,3,7,9,10}` in simple mode with brackets. -/
theorem round_trip_all_flags_witness :
    ∃ str s1, idset_encode (some ⟨IDSET_MAGIC, ⟨1024, [1, 2, 3, 7, 9, 10]⟩, 1⟩)
        IDSET_FLAG_BRACKETS = .ok str
      ∧ idset_decode (some str) = .ok s1
      ∧ ∀ x, x ∈ s1.T.D ↔ x ∈ [(1 : Int), 2, 3, 7, 9, 10] :=
  round_trip_all_flags ⟨IDSET_MAGIC, ⟨1024, [1, 2, 3, 7, 9, 10]⟩, 1⟩ (by decide) (by decide)
    IDSET_FLAG_BRACKETS (Or.inr (Or.inl rfl))

/-! ## Bracket stripping -/

theorem strdup_cons (c : Char) (l : List Char) (h : c ≠ Char.ofNat 0) :
    strdup (c :: l) = c :: strdup l := by
  simp [strdup, h]

theorem strdup_append_clean (b l : List Char) (h : ∀ c ∈ b, c ≠ Char.ofNat 0) :
    strdup (b ++ l) = b ++ strdup l := by
  induction b with
  | nil => rfl
  | cons c b ih =>
    rw [List.cons_append, strdup_cons _ _ (h c (List.mem_cons_self _ _)),
      ih (fun d hd => h d (List.mem_cons_of_mem _ hd))]
    rfl

theorem strdup_append_nul (b l : List Char) (h : ∃ c ∈ b, c = Char.ofNat 0) :
    strdup (b ++ l) = strdup b := by
  induction b with
  | nil =>
    obtain ⟨c, hc, _⟩ := h
    simp at hc
  | cons c b ih =>
    by_cases hc : c = Char.ofNat 0
    · simp [strdup, hc]
    · rw [List.cons_append, strdup_cons _ _ hc, strdup_cons _ _ hc, ih]
      obtain ⟨d, hd, hd0⟩ := h
      rcases List.mem_cons.1 hd with rfl | hd
      · exact absurd hd0 hc
      · exact ⟨d, hd, hd0⟩

theorem strdup_free (b : List Char) (h : ∀ c ∈ b, c ≠ '[' ∧ c ≠ ']') :
    ∀ c ∈ strdup b, c ≠ '[' ∧ c ≠ ']' := fun c hc =>
  h c ((List.takeWhile_sublist _).subset hc)

theorem trim_open (q : List Char) (h : ∀ c ∈ q, c ≠ '[' ∧ c ≠ ']') :
    trim_brackets ('[' :: q) = q := by
  have h2 : q.getLast? ≠ some ']' := fun hc => (h ']' (List.mem_of_getLast?_eq_some hc)).2 rfl
  unfold trim_brackets
  simp [h2]

theorem trim_close (q : List Char) (h : ∀ c ∈ q, c ≠ '[' ∧ c ≠ ']') :
    trim_brackets (q ++ [']']) = q := by
  have h1 : (q ++ [']']).head? ≠ some '[' := by
    cases q with
    | nil => decide
    | cons a as =>
      have := (h a (List.mem_cons_self _ _)).1
      simpa using this
  unfold trim_brackets
  simp only [h1, if_false]
  simp

/-- The four bracketings of a bracket-free body reach the tokenizer as the
same text. -/
theorem trim_forms (b : List Char) (h : ∀ c ∈ b, c ≠ '[' ∧ c ≠ ']') :
    trim_brackets (strdup ('[' :: (b ++ [']']))) = trim_brackets (strdup b)
      ∧ trim_brackets (strdup ('[' :: b)) = trim_brackets (strdup b)
      ∧ trim_brackets (strdup (b ++ [']'])) = trim_brackets (strdup b) := by
  have hq := strdup_free b h
  have hid := trim_brackets_id _ hq
  have ho : ('[' : Char) ≠ Char.ofNat 0 := by decide
  have hc : strdup [']'] = [']'] := by decide
  rw [strdup_cons _ _ ho, strdup_cons _ _ ho, hid, trim_open _ hq]
  by_cases hn : ∀ c ∈ b, c ≠ Char.ofNat 0
  · rw [strdup_append_clean b _ hn, hc, strdup_id b hn, trim_brackets_wrapped, trim_close _ h]
    exact ⟨rfl, rfl, rfl⟩
  · have hn2 : ∃ c ∈ b, c = Char.ofNat 0 := by
      by_contra hne
      exact hn (fun c hc h0 => hne ⟨c, hc, h0⟩)
    rw [strdup_append_nul b _ hn2, trim_open _ hq, hid]
    exact ⟨rfl, rfl, rfl⟩

theorem parse_range_open (t : List Char) : parse_range ('[' :: t) = none := by
  have h1 : strtoul ('[' :: t) = (0, '[' :: t) := by
    unfold strtoul
    have hsp : List.dropWhile isspace ('[' :: t) = '[' :: t := by
      rw [List.dropWhile_cons_of_neg (by decide)]
    simp only [hsp, strtoul_sign_other '[' t (by decide) (by decide)]
    rw [List.takeWhile_cons_of_neg (by decide)]
    simp
  unfold parse_range
  simp [h1]

/-- A text that still starts with `[` after `trim_brackets` is rejected. -/
theorem decode_second_open (q : List Char) :
    idset_decode (some ('[' :: '[' :: q)) = .fail .EINVAL := by
  have ho : ('[' : Char) ≠ Char.ofNat 0 := by decide
  rw [idset_decode_eq, strdup_cons _ _ ho, strdup_cons _ _ ho]
  have ht : ∃ r, trim_brackets ('[' :: '[' :: strdup q) = '[' :: r := by
    cases strdup q with
    | nil => exact ⟨[], by decide⟩
    | cons a as =>
      unfold trim_brackets
      simp only [List.head?_cons, if_true, List.tail_cons]
      split
      · exact ⟨(a :: as).dropLast, by simp⟩
      · exact ⟨_, rfl⟩
  obtain ⟨r, hr⟩ := ht
  rw [hr, tokens_cons _ (by simp) (by simp),
    List.takeWhile_cons_of_pos (by decide), decode_tokens]
  simp only [parse_range_open]

/-- C11: bracket stripping in decode.  For every bracket-free body `b`, the
texts `[b]`, `[b` and `b]` are decoded exactly as `b` is, with the same
result whenever `b` is accepted; a second leading `[` is not stripped, and
every text that starts with `[[` is rejected as malformed. -/
theorem bracket_stripping (b : List Char) (hb : ∀ c ∈ b, c ≠ '[' ∧ c ≠ ']') :
    idset_decode (some ('[' :: (b ++ [']']))) = idset_decode (some b)
      ∧ idset_decode (some ('[' :: b)) = idset_decode (some b)
      ∧ idset_decode (some (b ++ [']'])) = idset_decode (some b)
      ∧ (∀ q, idset_decode (some ('[' :: '[' :: q)) = .fail .EINVAL) := by
  obtain ⟨h1, h2, h3⟩ := trim_forms b hb
  refine ⟨?_, ?_, ?_, decode_second_open⟩
  · rw [idset_decode_eq, idset_decode_eq, h1]
  · rw [idset_decode_eq, idset_decode_eq, h2]
  · rw [idset_decode_eq, idset_decode_eq, h3]

/-- Witness for C11: `[1-3,7]`, `[1-3,7` and `1-3,7]` decode as `1-3,7` does,
and `[[1]]` is rejected. -/
theorem bracket_stripping_witness :
    idset_decode (some "[1-3,7]".toList) = .ok ⟨IDSET_MAGIC, ⟨1024, [1, 2, 3, 7]⟩, 1⟩
      ∧ idset_decode (some "[1-3,7".toList) = .ok ⟨IDSET_MAGIC, ⟨1024, [1, 2, 3, 7]⟩, 1⟩
      ∧ idset_decode (some "1-3,7]".toList) = .ok ⟨IDSET_MAGIC, ⟨1024, [1, 2, 3, 7]⟩, 1⟩
      ∧ idset_decode (some "[[1]]".toList) = .fail .EINVAL :=
  ⟨(bracket_stripping "1-3,7".toList (by decide)).1,
    (bracket_stripping "1-3,7".toList (by decide)).2.1,
    (bracket_stripping "1-3,7".toList (by decide)).2.2.1,
    (bracket_stripping "1-3,7".toList (by decide)).2.2.2 "1]]".toList⟩

/-! ## The effect of decoding does not depend on the starting set -/

theorem max_cap_le (e : Nat) (he : e ≤ 30) (slots : Int) (hs : slots < 1073741824) :
    max ((2 : Int) ^ e) (round_pow2 (slots + 1)) ≤ 1073741824 ∧
      slots < max ((2 : Int) ^ e) (round_pow2 (slots + 1)) := by
  obtain ⟨y, hy, _, hmax, hlt⟩ := grow_cap e he slots hs
  rw [hmax]
  exact ⟨two_pow_le_30 y hy, hlt⟩

/-- An insertion into a set with a power-of-two capacity of at most `2^30`
either does not return, whatever the set, or enlarges the capacity to the
larger of the old one and `set_cap i` and adds the members `set_new i`. -/
theorem idset_set_effect (s : idset) (i : Int) (hg : pgood s) :
    (¬ wrap32 (i + 1) < 1073741824 → idset_set s i = .loops)
      ∧ (wrap32 (i + 1) < 1073741824 →
          ∃ s1, idset_set s i = .ok s1 ∧ pgood s1 ∧ s1.T.M = max s.T.M (set_cap i)
            ∧ s1.flags = s.flags ∧ s1.magic = s.magic
            ∧ ∀ z, z ∈ s1.T.D ↔ z ∈ s.T.D ∨ z ∈ set_new i) := by
  have hc := idset_set_pow2 s i hg
  constructor
  · intro h
    rw [hc, if_neg h]
  · intro h
    rw [if_pos h] at hc
    refine ⟨_, hc, pgood_grown s _ hg h i, by simp only [vebput_M]; rfl, rfl, rfl, ?_⟩
    obtain ⟨hv, e, he, hM⟩ := hg
    obtain ⟨hle, hlt⟩ := max_cap_le e he _ h
    rw [← hM] at hle hlt
    intro z
    simp only
    unfold set_new
    by_cases hi : 0 ≤ i ∧ i < 1073741824
    · have hw : wrap32 (i + 1) = i + 1 := wrap32_id _ (by omega) (by omega)
      rw [hw] at hlt
      rw [vebput_D _ _ ⟨hi.1, by simp only; rw [hw]; omega⟩, mem_insert_id, if_pos hi]
      simp only [List.mem_singleton]
      tauto
    · unfold vebput
      rw [if_neg (fun h2 => hi ⟨h2.1, by have := h2.2; simp only at this; omega⟩), if_neg hi]
      simp

theorem decode_for_effect (lo : Int) : ∀ (fuel : Nat) (i : Int),
    (∀ s, pgood s → ∀ s1, decode_for fuel s i lo ≠ .ok s1)
      ∨ ∃ (c : Int) (L : List Int), ∀ s, pgood s →
          ∃ s1, decode_for fuel s i lo = .ok s1 ∧ pgood s1 ∧ s1.T.M = max s.T.M c
            ∧ s1.flags = s.flags ∧ s1.magic = s.magic
            ∧ ∀ z, z ∈ s1.T.D ↔ z ∈ s.T.D ∨ z ∈ L := by
  intro fuel
  induction fuel with
  | zero =>
    intro i
    left
    intro s _ s1
    simp [decode_for]
  | succ f ih =>
    intro i
    by_cases hge : i ≥ lo
    · by_cases hok : wrap32 (i + 1) < 1073741824
      · rcases ih (wrap32 (i - 1)) with hL | ⟨c, L, hR⟩
        · left
          intro s hg s1 h
          obtain ⟨s2, h2, hg2, _⟩ := (idset_set_effect s i hg).2 hok
          rw [decode_for, if_pos hge, h2] at h
          exact hL s2 hg2 s1 h
        · right
          refine ⟨max (set_cap i) c, set_new i ++ L, ?_⟩
          intro s hg
          obtain ⟨s2, h2, hg2, hM2, hf2, hm2, hmem2⟩ := (idset_set_effect s i hg).2 hok
          obtain ⟨s1, h1, hg1, hM1, hf1, hm1, hmem1⟩ := hR s2 hg2
          refine ⟨s1, by rw [decode_for, if_pos hge, h2]; exact h1, hg1,
            by rw [hM1, hM2, max_assoc], by rw [hf1, hf2], by rw [hm1, hm2], ?_⟩
          intro z
          rw [hmem1 z, hmem2 z, List.mem_append]
          tauto
      · left
        intro s hg s1 h
        rw [decode_for, if_pos hge, (idset_set_effect s i hg).1 hok] at h
        simp at h
    · right
      refine ⟨1, [], ?_⟩
      intro s hg
      refine ⟨s, by rw [decode_for, if_neg hge], hg, (max_eq_left hg.1.1).symm, rfl, rfl, ?_⟩
      intro z
      simp

theorem decode_tokens_effect (toks : List (List Char)) :
    (∀ s, pgood s → ∀ s1, decode_tokens s toks ≠ .ok s1)
      ∨ ∃ (c : Int) (L : List Int), ∀ s, pgood s →
          ∃ s1, decode_tokens s toks = .ok s1 ∧ pgood s1 ∧ s1.T.M = max s.T.M c
            ∧ s1.flags = s.flags ∧ s1.magic = s.magic
            ∧ ∀ z, z ∈ s1.T.D ↔ z ∈ s.T.D ∨ z ∈ L := by
  induction toks with
  | nil =>
    right
    refine ⟨1, [], ?_⟩
    intro s hg
    exact ⟨s, rfl, hg, (max_eq_left hg.1.1).symm, rfl, rfl, by simp⟩
  | cons t toks ih =>
    cases hp : parse_range t with
    | none =>
      left
      intro s _ s1 h
      rw [decode_tokens, hp] at h
      simp at h
    | some x =>
      obtain ⟨hi, lo⟩ := x
      rcases decode_for_effect lo 4294967297 hi with hL | ⟨c2, L2, hR2⟩
      · left
        intro s hg s1 h
        rw [decode_tokens, hp] at h
        simp only at h
        cases hd : decode_for 4294967297 s hi lo with
        | ok s2 => exact hL s hg s2 hd
        | fail e => simp [hd] at h
        | loops => simp [hd] at h
      · rcases ih with hL | ⟨c, L, hR⟩
        · left
          intro s hg s1 h
          obtain ⟨s2, h2, hg2, _⟩ := hR2 s hg
          rw [decode_tokens, hp] at h
          simp only [h2] at h
          exact hL s2 hg2 s1 h
        · right
          refine ⟨max c2 c, L2 ++ L, ?_⟩
          intro s hg
          obtain ⟨s2, h2, hg2, hM2, hf2, hm2, hmem2⟩ := hR2 s hg
          obtain ⟨s1, h1, hg1, hM1, hf1, hm1, hmem1⟩ := hR s2 hg2
          refine ⟨s1, ?_, hg1, by rw [hM1, hM2, max_assoc], by rw [hf1, hf2],
            by rw [hm1, hm2], ?_⟩
          · rw [decode_tokens, hp]
            simp only [h2]
            exact h1
          · intro z
            rw [hmem1 z, hmem2 z, List.mem_append]
            tauto

theorem split_commas_append (a b : List Char) :
    split_commas (a ++ ',' :: b) = split_commas a ++ split_commas b := by
  induction a with
  | nil => simp [split_commas]
  | cons c a ih =>
    by_cases hc : c = ','
    · subst hc
      simp [split_commas, ih]
    · rw [List.cons_append, split_commas, if_neg hc, ih, split_commas, if_neg hc]
      cases hs : split_commas a with
      | nil => exact absurd hs (split_commas_ne_nil a)
      | cons t ts => rfl

theorem tokens_append (a b : List Char) : tokens (a ++ ',' :: b) = tokens a ++ tokens b := by
  unfold tokens
  rw [split_commas_append, List.filter_append]

theorem decode_tokens_append (t1 t2 : List (List Char)) : ∀ (s s1 : idset),
    decode_tokens s t1 = .ok s1 → decode_tokens s (t1 ++ t2) = decode_tokens s1 t2 := by
  induction t1 with
  | nil =>
    intro s s1 h
    simp only [decode_tokens, Outcome.ok.injEq] at h
    subst h
    rfl
  | cons t t1 ih =>
    intro s s1 h
    rw [decode_tokens] at h
    rw [List.cons_append, decode_tokens]
    cases hp : parse_range t with
    | none => simp [hp] at h
    | some x =>
      obtain ⟨hi, lo⟩ := x
      simp only [hp] at h ⊢
      cases hd : decode_for 4294967297 s hi lo with
      | ok s2 =>
        simp only [hd] at h ⊢
        exact ih s2 s1 h
      | fail e => simp [hd] at h
      | loops => simp [hd] at h

theorem sorted_ext : ∀ (l1 l2 : List Int), l1.Pairwise (fun a b => a < b) →
    l2.Pairwise (fun a b => a < b) → (∀ z, z ∈ l1 ↔ z ∈ l2) → l1 = l2 := by
  intro l1
  induction l1 with
  | nil =>
    intro l2 _ _ h
    cases l2 with
    | nil => rfl
    | cons b t2 => exact absurd ((h b).2 (List.mem_cons_self _ _)) (by simp)
  | cons a t1 ih =>
    intro l2 h1 h2 h
    cases l2 with
    | nil => exact absurd ((h a).1 (List.mem_cons_self _ _)) (by simp)
    | cons b t2 =>
      rw [List.pairwise_cons] at h1 h2
      have hab : a = b := by
        rcases List.mem_cons.1 ((h a).1 (List.mem_cons_self _ _)) with hx | hx
        · exact hx
        · rcases List.mem_cons.1 ((h b).2 (List.mem_cons_self _ _)) with hy | hy
          · exact hy.symm
          · have := h1.1 b hy
            have := h2.1 a hx
            omega
      subst hab
      congr 1
      apply ih t2 h1.2 h2.2
      intro z
      constructor
      · intro hz
        rcases List.mem_cons.1 ((h z).1 (List.mem_cons_of_mem _ hz)) with hx | hx
        · have := h1.1 z hz
          omega
        · exact hx
      · intro hz
        rcases List.mem_cons.1 ((h z).2 (List.mem_cons_of_mem _ hz)) with hx | hx
        · have := h2.1 z hz
          omega
        · exact hx

theorem idset_eq (x y : idset) (hm : x.magic = y.magic) (hM : x.T.M = y.T.M)
    (hD : x.T.D = y.T.D) (hf : x.flags = y.flags) : x = y := by
  obtain ⟨xm, ⟨xM, xD⟩, xf⟩ := x
  obtain ⟨ym, ⟨yM, yD⟩, yf⟩ := y
  simp only at hm hM hD hf
  subst hm hM hD hf
  rfl

/-- Decoding `a` and then the tokens of `b`: when both texts are accepted on
their own, the tokens of `b` are accepted after `a`, with the union of the
members and the larger capacity. -/
theorem decode_tokens_after (ta tb : List (List Char)) (sa sb : idset)
    (ha : decode_tokens decode_start ta = .ok sa)
    (hb : decode_tokens decode_start tb = .ok sb) :
    ∃ sab, decode_tokens decode_start (ta ++ tb) = .ok sab ∧ valid sab.T
      ∧ sab.T.M = max sa.T.M sb.T.M ∧ sab.flags = decode_start.flags
      ∧ sab.magic = decode_start.magic
      ∧ ∀ z, z ∈ sab.T.D ↔ z ∈ sa.T.D ∨ z ∈ sb.T.D := by
  obtain ⟨hga, hMa, hfa, hma⟩ := decode_tokens_pgood ta decode_start sa decode_start_good ha
  rcases decode_tokens_effect tb with hL | ⟨c, L, hR⟩
  · exact absurd hb (hL decode_start decode_start_good sb)
  · obtain ⟨sb2, hb2, _, hMb, _, _, hmemb⟩ := hR decode_start decode_start_good
    rw [hb] at hb2
    simp only [Outcome.ok.injEq] at hb2
    subst hb2
    obtain ⟨sab, h1, hg1, hM1, hf1, hm1, hmem1⟩ := hR sa hga
    refine ⟨sab, by rw [decode_tokens_append ta tb _ sa ha]; exact h1, hg1.1, ?_,
      by rw [hf1, hfa], by rw [hm1, hma], ?_⟩
    · rw [hM1, hMb]
      rw [max_comm decode_start.T.M c, ← max_assoc]
      exact (max_eq_left (le_trans hMa (le_max_left _ _))).symm
    · intro z
      rw [hmem1 z, hmemb z]
      have : z ∉ decode_start.T.D := by simp [decode_start, vebnew]
      tauto

/-! ## Union of decoded texts, and termination of growth -/

theorem decode_plain (a : List Char)
    (ha : ∀ c ∈ a, c ≠ Char.ofNat 0 ∧ c ≠ '[' ∧ c ≠ ']') :
    idset_decode (some a) = decode_tokens decode_start (tokens a) := by
  rw [idset_decode_eq, strdup_id a (fun c hc => (ha c hc).1),
    trim_brackets_id a (fun c hc => (ha c hc).2)]

theorem decode_joined (a b : List Char)
    (ha : ∀ c ∈ a, c ≠ Char.ofNat 0 ∧ c ≠ '[' ∧ c ≠ ']')
    (hb : ∀ c ∈ b, c ≠ Char.ofNat 0 ∧ c ≠ '[' ∧ c ≠ ']') :
    idset_decode (some (a ++ ',' :: b))
      = decode_tokens decode_start (tokens a ++ tokens b) := by
  rw [decode_plain, tokens_append]
  intro c hc
  simp only [List.mem_append, List.mem_cons] at hc
  rcases hc with hc | rfl | hc
  · exact ha c hc
  · decide
  · exact hb c hc

/-- C19: decode is a union homomorphism.  For bracket-free texts `a` and `b`
(C strings, so without NUL) that `idset_decode` accepts, `a,b` and `b,a` are
accepted, both return one and the same set, whose members are the union of
the members of the two sets and whose capacity is the larger of the two
capacities; the encodings of that one set are therefore identical. -/
theorem decode_union (a b : List Char)
    (ha : ∀ c ∈ a, c ≠ Char.ofNat 0 ∧ c ≠ '[' ∧ c ≠ ']')
    (hb : ∀ c ∈ b, c ≠ Char.ofNat 0 ∧ c ≠ '[' ∧ c ≠ ']')
    (sa sb : idset) (hda : idset_decode (some a) = .ok sa)
    (hdb : idset_decode (some b) = .ok sb) :
    ∃ sab, idset_decode (some (a ++ ',' :: b)) = .ok sab
      ∧ idset_decode (some (b ++ ',' :: a)) = .ok sab
      ∧ (∀ z, z ∈ sab.T.D ↔ z ∈ sa.T.D ∨ z ∈ sb.T.D)
      ∧ sab.T.M = max sa.T.M sb.T.M := by
  rw [decode_plain a ha] at hda
  rw [decode_plain b hb] at hdb
  obtain ⟨sab, h1, hv1, hM1, hf1, hm1, hmem1⟩ := decode_tokens_after _ _ sa sb hda hdb
  obtain ⟨sba, h2, hv2, hM2, hf2, hm2, hmem2⟩ := decode_tokens_after _ _ sb sa hdb hda
  have heq : sba = sab := by
    apply idset_eq _ _ (by rw [hm1, hm2]) (by rw [hM1, hM2, max_comm]) _ (by rw [hf1, hf2])
    apply sorted_ext _ _ hv2.2.1 hv1.2.1
    intro z
    rw [hmem1 z, hmem2 z]
    tauto
  refine ⟨sab, ?_, ?_, hmem1, hM1⟩
  · rw [decode_joined a b ha hb]
    exact h1
  · rw [decode_joined b a hb ha, h2, heq]

/-- Witness for C19: `3,1` and `2`; and the texts `3,1,2` and `1-3,2` both
re-encode with brackets and ranges to `[1-3]`. -/
theorem decode_union_witness :
    (∃ sab, idset_decode (some "3,1,2".toList) = .ok sab
        ∧ idset_decode (some "2,3,1".toList) = .ok sab
        ∧ (∀ z, z ∈ sab.T.D ↔ z ∈ [(1 : Int), 3] ∨ z ∈ [(2 : Int)])
        ∧ sab.T.M = max 1024 1024)
      ∧ idset_encode (some ⟨IDSET_MAGIC, ⟨1024, [1, 2, 3]⟩, 1⟩)
          (IDSET_FLAG_BRACKETS ||| IDSET_FLAG_RANGE) = .ok "[1-3]".toList
      ∧ idset_decode (some "3,1,2".toList) = .ok ⟨IDSET_MAGIC, ⟨1024, [1, 2, 3]⟩, 1⟩
      ∧ idset_decode (some "1-3,2".toList) = .ok ⟨IDSET_MAGIC, ⟨1024, [1, 2, 3]⟩, 1⟩ :=
  ⟨decode_union "3,1".toList "2".toList (by decide) (by decide)
      ⟨IDSET_MAGIC, ⟨1024, [1, 3]⟩, 1⟩ ⟨IDSET_MAGIC, ⟨1024, [2]⟩, 1⟩ (by decide) (by decide),
    by decide, by decide, by decide⟩

/-- C20, as stated, fails: with capacity 1024 and the slot count `2^30`,
which is within `[0, INT_MAX]`, the doubling loop never exits, whatever the
fuel; the text `1073741823` holds an integer that fits an `int`, and
`idset_decode` of it does not return. -/
theorem growth_termination_counterexample :
    (∀ fuel : Nat, grow_loop fuel 1024 1073741824 = none)
      ∧ (0 : Int) ≤ 1073741824 ∧ (1073741824 : Int) ≤ INT_MAX
      ∧ parse_range "1073741823".toList = some (1073741823, 1073741823)
      ∧ idset_decode (some "1073741823".toList) = .loops := by
  refine ⟨fun fuel => ?_, by decide, by decide, by decide, by decide⟩
  have h := grow_loop_none 1073741824 (le_refl _) fuel 10 (by omega)
  norm_num at h
  exact h

/-- C20 amended: termination of growth without overflow.  For every capacity
`c` with `1 ≤ c < 2^31` and every slot count below `2^30`, the doubling loop
exits after `k` doublings with `newsize = c * 2^k`, positive, above `slots`
and below `2^31` (no overflow), `k` being the least such number; and
`idset_decode` returns, with a set or with `EINVAL`, on every text whose
parsed ranges stay within these bounds. -/
theorem growth_terminates (c slots : Int) (hc : 1 ≤ c) (hc2 : c < 2147483648)
    (hs : slots < 1073741824) :
    (∃ k : Nat, grow_loop 64 c slots = some (c * 2 ^ k) ∧ slots < c * 2 ^ k
        ∧ 0 < c * 2 ^ k ∧ c * 2 ^ k < 2147483648 ∧ (k = 0 ∨ c * 2 ^ (k - 1) ≤ slots))
      ∧ (∀ str : List Char,
          (∀ t ∈ tokens (trim_brackets (strdup str)), safe_tok t = true) →
          idset_decode (some str) ≠ .loops) := by
  constructor
  · obtain ⟨k, hk1, hk2, hk3⟩ := grow_loop_spec slots hs 63 c hc hc2 (by
      have : (1 : Int) * 2 ^ 63 ≤ c * 2 ^ 63 :=
        mul_le_mul_of_nonneg_right hc (by positivity)
      norm_num at this ⊢
      omega)
    have hge : c * 1 ≤ c * 2 ^ k :=
      mul_le_mul_of_nonneg_left (one_le_pow₀ (by norm_num)) (by omega)
    refine ⟨k, hk1, hk2, by omega, ?_, hk3⟩
    rcases hk3 with rfl | hk3
    · simpa using hc2
    · rcases Nat.eq_zero_or_pos k with h0 | h0
      · subst h0
        simpa using hc2
      · obtain ⟨j, rfl⟩ : ∃ j, k = j + 1 := ⟨k - 1, by omega⟩
        simp only [Nat.add_sub_cancel] at hk3
        rw [pow_succ]
        linarith
  · intro str hsafe
    rw [idset_decode_eq]
    by_cases hbad : ∃ t ∈ tokens (trim_brackets (strdup str)), parse_range t = none
    · rw [decode_tokens_bad _ decode_start decode_start_good
        (fun t ht hi lo hp => safe_tok_spec t (hsafe t ht) hi lo hp) hbad]
      simp
    · obtain ⟨s1, h1, _⟩ := decode_tokens_ok _ decode_start decode_start_good (by
        intro t ht
        cases hp : parse_range t with
        | none => exact absurd ⟨t, ht, hp⟩ hbad
        | some x =>
          obtain ⟨hi, lo⟩ := x
          exact ⟨hi, lo, rfl, safe_tok_spec t (hsafe t ht) hi lo hp⟩)
      rw [h1]
      simp

/-- Witness for C20 amended: capacity 1024 and 2001 slots give 2048. -/
theorem growth_terminates_witness :
    ∃ k : Nat, grow_loop 64 1024 2001 = some (1024 * 2 ^ k) ∧ (2001 : Int) < 1024 * 2 ^ k
      ∧ (0 : Int) < 1024 * 2 ^ k ∧ (1024 : Int) * 2 ^ k < 2147483648
      ∧ (k = 0 ∨ (1024 : Int) * 2 ^ (k - 1) ≤ 2001) :=
  (growth_terminates 1024 2001 (by decide) (by decide) (by decide)).1

end Flux
